import Mathlib

set_option autoImplicit false

/-!
Verification of the BIT* vertex data structure (Vertex.cpp), the
time-parameterised state validity checker (StateValidityChecker), and the
Atlas geodesic traversal contract of the MROR multi-robot OMPL fork.

The C++ code is embedded shallowly: a vertex forest is an association list
from vertex id to vertex record, every mutator returns the new forest
together with an optional programming error (mirroring the fact that C++
exceptions propagate after the mutations already performed), and the
debug-only assertions guarded by BITSTAR_DEBUG are controlled by an explicit
`debug : Bool` flag.  Recursive cost cascades are run on fuel; any C++
execution that terminates is reproduced exactly by every sufficiently large
fuel, and nonterminating ones surface as a `fuelOut` error.
-/

namespace MROR

/-- Abstract cost collaborator (the CostHelper contract of the spec): a
neutral `identityCost`, an `infiniteCost`, and `combineCosts`.  The vertex
code only stores results of `combineCosts`, so the cost type stays an
abstract type `C`. -/
structure CostHelper (C : Type) where
  identityCost : C
  infiniteCost : C
  combineCosts : C → C → C

/-- 2 ^ 32, the modulus of the C++ `unsigned int` used for `depth_`. -/
def UINT32 : Nat := 4294967296

/-- Shallow embedding of the state of one `BITstar::Vertex`
(Vertex.h / Vertex.cpp).  The map key of the forest plays the role of
`vId_`; `parent` is `parentSPtr_` (by id), `children` is `childWPtrs_`
(by id), and the flags mirror the C++ booleans. -/
structure Vertex (C : Type) where
  isRoot : Bool
  parent : Option Nat
  children : List Nat
  edgeCost : C
  cost : C
  depth : Nat
  isNew : Bool
  hasBeenExpandedToSamples : Bool
  hasBeenExpandedToVertices : Bool
  isPruned : Bool
  deriving DecidableEq

/-- A forest of vertices, keyed by vertex id. -/
abbrev Forest (C : Type) : Type := List (Nat × Vertex C)

/-- Programming errors raised by the vertex code (all are
`ompl::Exception`s in Vertex.cpp), plus the two artifacts of the shallow
embedding: calling a method on an id that is not in the forest
(`missingVertex`, impossible in C++ where the receiver object exists), and
running out of fuel (`fuelOut`, corresponding to a nonterminating C++
recursion). -/
inductive VErr : Type
  | prunedAccess
  | expiredChild
  | childNotFound
  | addParentHasParent
  | addParentRoot
  | removeParentNoParent
  | removeParentRoot
  | cascadeDisconnected
  | depthDisconnected
  | missingVertex
  | fuelOut
  deriving DecidableEq

/-- Look a vertex up by id (first binding wins, as for a map). -/
def findV {C : Type} : Forest C → Nat → Option (Vertex C)
  | [], _ => none
  | kv :: rest, i => if kv.1 = i then some kv.2 else findV rest i

/-- Replace the record stored under id `i` (a mutation of the pointed-to
vertex object; ids and their order are unchanged). -/
def setV {C : Type} (f : Forest C) (i : Nat) (v : Vertex C) : Forest C :=
  f.map (fun kv => if kv.1 = i then (i, v) else kv)

/-- The ids present in a forest. -/
def keysV {C : Type} (f : Forest C) : List Nat :=
  f.map (fun kv => kv.1)

/-- Work items of the fuelled interpreter for the recursive cost cascade:
update one vertex (`upd`, the body of `updateCostAndDepth`), or walk a
list of children (`kids`, the cascade loop over `childWPtrs_`). -/
inductive Task : Type
  | upd (i : Nat) (cascade : Bool)
  | kids (cs : List Nat)

/-- Fuelled interpreter for `BITstar::Vertex::updateCostAndDepth`
(Vertex.cpp lines 497-555) and its cascade loop.

`upd i cascade`: after the debug pruned assertion, the vertex recomputes
its cost and depth — identity cost and depth 0 for a root, infinite cost
and depth 0 when disconnected (with the debug-only exception when asked to
cascade that state to existing children), and
`combineCosts (parent.getCost()) edgeCost_` with `parent.getDepth() + 1`
otherwise, where `getCost`/`getDepth` carry their own debug assertions and
the two member writes happen in this order — and then, if `cascade`,
iterates over its children telling each to update with cascade.

`kids cs`: the cascade loop; each child pointer is checked against
expiry and then told to `updateCostAndDepth(true)`; a thrown exception
propagates immediately, keeping the mutations performed so far. -/
def run {C : Type} (ch : CostHelper C) (debug : Bool) :
    Nat → Forest C → Task → Forest C × Option VErr
  | 0, f, _ => (f, some VErr.fuelOut)
  | Nat.succ fuel, f, Task.upd i cascade =>
    match findV f i with
    | none => (f, some VErr.missingVertex)
    | some v =>
      if debug && v.isPruned then (f, some VErr.prunedAccess)
      else if v.isRoot then
        let f2 := setV f i { v with cost := ch.identityCost, depth := 0 }
        if cascade then run ch debug fuel f2 (Task.kids v.children) else (f2, none)
      else
        match v.parent with
        | none =>
          let f2 := setV f i { v with cost := ch.infiniteCost, depth := 0 }
          if debug && (!v.children.isEmpty && cascade) then
            (f2, some VErr.cascadeDisconnected)
          else if cascade then run ch debug fuel f2 (Task.kids v.children) else (f2, none)
        | some p =>
          match findV f p with
          | none => (f, some VErr.missingVertex)
          | some pv =>
            if debug && pv.isPruned then (f, some VErr.prunedAccess)
            else
              let fc := setV f i { v with cost := ch.combineCosts pv.cost v.edgeCost }
              if debug && (!pv.isRoot && pv.parent.isNone) then
                (fc, some VErr.depthDisconnected)
              else
                let f2 := setV fc i { v with cost := ch.combineCosts pv.cost v.edgeCost,
                                             depth := (pv.depth + 1) % UINT32 }
                if cascade then run ch debug fuel f2 (Task.kids v.children) else (f2, none)
  | Nat.succ _, f, Task.kids [] => (f, none)
  | Nat.succ fuel, f, Task.kids (c :: rest) =>
    match findV f c with
    | none => (f, some VErr.expiredChild)
    | some _ =>
      match run ch debug fuel f (Task.upd c true) with
      | (f1, none) => run ch debug fuel f1 (Task.kids rest)
      | r => r

/-- `BITstar::Vertex::updateCostAndDepth` on vertex `i`. -/
def updateCostAndDepth {C : Type} (ch : CostHelper C) (debug : Bool) (fuel : Nat)
    (f : Forest C) (i : Nat) (cascade : Bool) : Forest C × Option VErr :=
  run ch debug fuel f (Task.upd i cascade)

/-- The cascade loop over a list of children. -/
def cascadeChildren {C : Type} (ch : CostHelper C) (debug : Bool) (fuel : Nat)
    (f : Forest C) (cs : List Nat) : Forest C × Option VErr :=
  run ch debug fuel f (Task.kids cs)

namespace Op

/-! Public operations of `BITstar::Vertex`.  Query operations return
`Except VErr α`; mutators return the new forest paired with the optional
exception.  `ASSERT_NOT_PRUNED` expands to `assertNotPruned` only when
BITSTAR_DEBUG is defined, which the `debug` flag mirrors; the same flag
guards the precondition checks wrapped in `#ifdef BITSTAR_DEBUG`. -/

/-- The guard of every asserting operation: `assertNotPruned`
(Vertex.cpp 560-568) under `ASSERT_NOT_PRUNED` (debug builds only). -/
def assertNotPruned {C : Type} (debug : Bool) (v : Vertex C) : Option VErr :=
  if debug && v.isPruned then some VErr.prunedAccess else none

/-- Run a query that needs the receiver: fetch the record, apply the
debug pruned assertion, then compute. -/
def query {C α : Type} (debug : Bool) (f : Forest C) (i : Nat)
    (k : Vertex C → Except VErr α) : Except VErr α :=
  match findV f i with
  | none => Except.error VErr.missingVertex
  | some v =>
    match assertNotPruned debug v with
    | some e => Except.error e
    | none => k v

/-- `getId` (Vertex.cpp 108-113). -/
def getId {C : Type} (debug : Bool) (f : Forest C) (i : Nat) : Except VErr Nat :=
  query debug f i (fun _ => Except.ok i)

/-- `isRoot` (Vertex.cpp 130-135). -/
def isRoot {C : Type} (debug : Bool) (f : Forest C) (i : Nat) : Except VErr Bool :=
  query debug f i (fun v => Except.ok v.isRoot)

/-- `hasParent` (Vertex.cpp 137-142). -/
def hasParent {C : Type} (debug : Bool) (f : Forest C) (i : Nat) : Except VErr Bool :=
  query debug f i (fun v => Except.ok v.parent.isSome)

/-- `isInTree` (Vertex.cpp 144-149). -/
def isInTree {C : Type} (debug : Bool) (f : Forest C) (i : Nat) : Except VErr Bool :=
  query debug f i (fun v => Except.ok (v.isRoot || v.parent.isSome))

/-- `getDepth` (Vertex.cpp 151-164), with the debug-only check that a
non-root vertex has a parent. -/
def getDepth {C : Type} (debug : Bool) (f : Forest C) (i : Nat) : Except VErr Nat :=
  query debug f i (fun v =>
    if debug && (!v.isRoot && v.parent.isNone) then Except.error VErr.depthDisconnected
    else Except.ok v.depth)

/-- `getParent` / `getParentConst` (Vertex.cpp 166-206), with the
debug-only exceptions for the root and for a parentless vertex. -/
def getParent {C : Type} (debug : Bool) (f : Forest C) (i : Nat) : Except VErr (Option Nat) :=
  query debug f i (fun v =>
    if debug && v.parent.isNone then
      if v.isRoot then Except.error VErr.removeParentRoot
      else Except.error VErr.removeParentNoParent
    else Except.ok v.parent)

/-- `getCost` (Vertex.cpp 384-389). -/
def getCost {C : Type} (debug : Bool) (f : Forest C) (i : Nat) : Except VErr C :=
  query debug f i (fun v => Except.ok v.cost)

/-- `getEdgeInCost` (Vertex.cpp 391-403), with the debug-only check for a
parent. -/
def getEdgeInCost {C : Type} (debug : Bool) (f : Forest C) (i : Nat) : Except VErr C :=
  query debug f i (fun v =>
    if debug && v.parent.isNone then Except.error VErr.removeParentNoParent
    else Except.ok v.edgeCost)

/-- `hasChildren` (Vertex.cpp 259-264). -/
def hasChildren {C : Type} (debug : Bool) (f : Forest C) (i : Nat) : Except VErr Bool :=
  query debug f i (fun v => Except.ok (!v.children.isEmpty))

/-- `getChildren` / `getChildrenConst` (Vertex.cpp 266-308): collect the
children, with the debug-only expiry check on each weak pointer. -/
def getChildren {C : Type} (debug : Bool) (f : Forest C) (i : Nat) : Except VErr (List Nat) :=
  query debug f i (fun v =>
    if debug && v.children.any (fun c => (findV f c).isNone) then
      Except.error VErr.expiredChild
    else Except.ok v.children)

/-- `isNew` (Vertex.cpp 405-410). -/
def isNew {C : Type} (debug : Bool) (f : Forest C) (i : Nat) : Except VErr Bool :=
  query debug f i (fun v => Except.ok v.isNew)

/-- `isPruned` (Vertex.cpp 474-477): the one query with no
`ASSERT_NOT_PRUNED`. -/
def isPruned {C : Type} (f : Forest C) (i : Nat) : Except VErr Bool :=
  match findV f i with
  | none => Except.error VErr.missingVertex
  | some v => Except.ok v.isPruned

/-- A flag mutator with the debug pruned assertion (`markNew`, `markOld`,
the four expansion marks, and `markPruned` all have this shape). -/
def markOp {C : Type} (debug : Bool) (f : Forest C) (i : Nat)
    (upd : Vertex C → Vertex C) : Forest C × Option VErr :=
  match findV f i with
  | none => (f, some VErr.missingVertex)
  | some v =>
    match assertNotPruned debug v with
    | some e => (f, some e)
    | none => (setV f i (upd v), none)

/-- `markNew` (Vertex.cpp 412-418). -/
def markNew {C : Type} (debug : Bool) (f : Forest C) (i : Nat) : Forest C × Option VErr :=
  markOp debug f i (fun v => { v with isNew := true })

/-- `markOld` (Vertex.cpp 420-426). -/
def markOld {C : Type} (debug : Bool) (f : Forest C) (i : Nat) : Forest C × Option VErr :=
  markOp debug f i (fun v => { v with isNew := false })

/-- `hasBeenExpandedToSamples` (Vertex.cpp 428-433). -/
def hasBeenExpandedToSamples {C : Type} (debug : Bool) (f : Forest C) (i : Nat) :
    Except VErr Bool :=
  query debug f i (fun v => Except.ok v.hasBeenExpandedToSamples)

/-- `markExpandedToSamples` (Vertex.cpp 435-441). -/
def markExpandedToSamples {C : Type} (debug : Bool) (f : Forest C) (i : Nat) :
    Forest C × Option VErr :=
  markOp debug f i (fun v => { v with hasBeenExpandedToSamples := true })

/-- `markUnexpandedToSamples` (Vertex.cpp 443-449). -/
def markUnexpandedToSamples {C : Type} (debug : Bool) (f : Forest C) (i : Nat) :
    Forest C × Option VErr :=
  markOp debug f i (fun v => { v with hasBeenExpandedToSamples := false })

/-- `hasBeenExpandedToVertices` (Vertex.cpp 451-456). -/
def hasBeenExpandedToVertices {C : Type} (debug : Bool) (f : Forest C) (i : Nat) :
    Except VErr Bool :=
  query debug f i (fun v => Except.ok v.hasBeenExpandedToVertices)

/-- `markExpandedToVertices` (Vertex.cpp 458-464). -/
def markExpandedToVertices {C : Type} (debug : Bool) (f : Forest C) (i : Nat) :
    Forest C × Option VErr :=
  markOp debug f i (fun v => { v with hasBeenExpandedToVertices := true })

/-- `markUnexpandedToVertices` (Vertex.cpp 466-472). -/
def markUnexpandedToVertices {C : Type} (debug : Bool) (f : Forest C) (i : Nat) :
    Forest C × Option VErr :=
  markOp debug f i (fun v => { v with hasBeenExpandedToVertices := false })

/-- `markPruned` (Vertex.cpp 479-485): guarded by `ASSERT_NOT_PRUNED`,
then sets the flag. -/
def markPruned {C : Type} (debug : Bool) (f : Forest C) (i : Nat) : Forest C × Option VErr :=
  markOp debug f i (fun v => { v with isPruned := true })

/-- `markUnpruned` (Vertex.cpp 487-492): no assertion at all. -/
def markUnpruned {C : Type} (f : Forest C) (i : Nat) : Forest C × Option VErr :=
  match findV f i with
  | none => (f, some VErr.missingVertex)
  | some v => (setV f i { v with isPruned := false }, none)

/-- `addParent` (Vertex.cpp 208-233): debug preconditions
`!hasParent && !isRoot`, then store the parent and the edge cost and run
`updateCostAndDepth(updateChildCosts)`. -/
def addParent {C : Type} (ch : CostHelper C) (debug : Bool) (fuel : Nat)
    (f : Forest C) (i p : Nat) (e : C) (cascade : Bool) : Forest C × Option VErr :=
  match findV f i with
  | none => (f, some VErr.missingVertex)
  | some v =>
    match assertNotPruned debug v with
    | some err => (f, some err)
    | none =>
      if debug && v.parent.isSome then (f, some VErr.addParentHasParent)
      else if debug && v.isRoot then (f, some VErr.addParentRoot)
      else
        updateCostAndDepth ch debug fuel
          (setV f i { v with parent := some p, edgeCost := e }) i cascade

/-- `removeParent` (Vertex.cpp 235-257): debug preconditions
`hasParent && !isRoot`, then reset the parent and run
`updateCostAndDepth(updateChildCosts)`. -/
def removeParent {C : Type} (ch : CostHelper C) (debug : Bool) (fuel : Nat)
    (f : Forest C) (i : Nat) (cascade : Bool) : Forest C × Option VErr :=
  match findV f i with
  | none => (f, some VErr.missingVertex)
  | some v =>
    match assertNotPruned debug v with
    | some err => (f, some err)
    | none =>
      if debug && v.parent.isNone then (f, some VErr.removeParentNoParent)
      else if debug && v.isRoot then (f, some VErr.removeParentRoot)
      else
        updateCostAndDepth ch debug fuel (setV f i { v with parent := none }) i cascade

/-- `addChild` (Vertex.cpp 310-323): push the child onto `childWPtrs_`,
then (if `updateChildCosts`) tell the child to `updateCostAndDepth(true)`. -/
def addChild {C : Type} (ch : CostHelper C) (debug : Bool) (fuel : Nat)
    (f : Forest C) (i c : Nat) (cascade : Bool) : Forest C × Option VErr :=
  match findV f i with
  | none => (f, some VErr.missingVertex)
  | some v =>
    match assertNotPruned debug v with
    | some err => (f, some err)
    | none =>
      let f1 := setV f i { v with children := v.children ++ [c] }
      if cascade then updateCostAndDepth ch debug fuel f1 c true else (f1, none)

/-- The scan of `removeChild` (Vertex.cpp 334-365): walk the child list
until the target id is found, with the debug expiry check on each visited
pointer and the debug pruned assertions of the two `getId` calls of the
comparison (the visited child's and `oldChild`'s).  Returns the index of
the first match, or `none` when the scan ran off the end. -/
def findChildIdx {C : Type} (debug : Bool) (f : Forest C) (c : Nat) :
    List Nat → Nat → Except VErr (Option Nat)
  | [], _ => Except.ok none
  | cc :: rest, k =>
    match findV f cc with
    | none => Except.error VErr.expiredChild
    | some ccv =>
      if debug && ccv.isPruned then Except.error VErr.prunedAccess
      else
        match findV f c with
        | none => Except.error VErr.missingVertex
        | some cv =>
          if debug && cv.isPruned then Except.error VErr.prunedAccess
          else if cc = c then Except.ok (some k)
          else findChildIdx debug f c rest (k + 1)

/-- Swap-and-pop removal at index `k` (Vertex.cpp 354-362): swap with the
back unless already last, then pop the back. -/
def swapPop (l : List Nat) (k : Nat) : List Nat :=
  if k + 1 = l.length then l.dropLast
  else
    match l.getLast? with
    | some last => (l.set k last).dropLast
    | none => l

/-- `removeChild` (Vertex.cpp 325-382): scan-and-remove by id, then (if
`updateChildCosts`) tell `oldChild` to `updateCostAndDepth(true)`, and
only then raise the debug not-found exception. -/
def removeChild {C : Type} (ch : CostHelper C) (debug : Bool) (fuel : Nat)
    (f : Forest C) (i c : Nat) (cascade : Bool) : Forest C × Option VErr :=
  match findV f i with
  | none => (f, some VErr.missingVertex)
  | some v =>
    match assertNotPruned debug v with
    | some err => (f, some err)
    | none =>
      match findChildIdx debug f c v.children 0 with
      | Except.error err => (f, some err)
      | Except.ok idx =>
        let newChildren := match idx with
          | some k => swapPop v.children k
          | none => v.children
        let f1 := setV f i { v with children := newChildren }
        let r := if cascade then updateCostAndDepth ch debug fuel f1 c true else (f1, none)
        match r with
        | (f2, some err) => (f2, some err)
        | (f2, none) =>
          if debug && idx.isNone then (f2, some VErr.childNotFound) else (f2, none)

end Op

/-! Structural predicates about a forest.  All are Bool-valued so that a
concrete forest can be checked by evaluation. -/

/-- Boolean membership in a list of ids. -/
def memB (j : Nat) (R : List Nat) : Bool :=
  R.any (fun x => decide (x = j))

/-- The cost-cascade invariant at one vertex: a non-root vertex with a
parent that is present carries `combineCosts (parent cost) edgeCost` and
depth `parent depth + 1` (unsigned-int arithmetic). -/
def costOkAtB {C : Type} [DecidableEq C] (ch : CostHelper C) (f : Forest C) (j : Nat) : Bool :=
  match findV f j with
  | none => true
  | some jv =>
    if jv.isRoot then true
    else
      match jv.parent with
      | none => true
      | some p =>
        match findV f p with
        | none => true
        | some pv =>
          decide (jv.cost = ch.combineCosts pv.cost jv.edgeCost) &&
            decide (jv.depth = (pv.depth + 1) % UINT32)

/-- The cost-cascade invariant over the whole forest. -/
def cascadeInvB {C : Type} [DecidableEq C] (ch : CostHelper C) (f : Forest C) : Bool :=
  (keysV f).all (fun j => costOkAtB ch f j)

/-- `R` is closed under taking children. -/
def childrenClosedB {C : Type} (f : Forest C) (R : List Nat) : Bool :=
  R.all (fun w =>
    match findV f w with
    | none => true
    | some wv => wv.children.all (fun c => memB c R))

/-- Every vertex whose parent lies in `R` is registered in that parent's
child list (the parent-pointer / child-list coherence every caller of the
vertex API maintains, restricted to `R`). -/
def parentLinkedOnB {C : Type} (f : Forest C) (R : List Nat) : Bool :=
  (keysV f).all (fun j =>
    match findV f j with
    | none => true
    | some jv =>
      match jv.parent with
      | none => true
      | some p =>
        !memB p R ||
          (match findV f p with
           | none => false
           | some pv => memB j pv.children))

/-- On `R`: every child of a member of `R` is present, is again in `R`,
has its parent pointer aimed back at the lister, and is not a root (the
child-list / parent-pointer coherence, restricted to `R`). -/
def childCoherentOnB {C : Type} (f : Forest C) (R : List Nat) : Bool :=
  R.all (fun w =>
    match findV f w with
    | none => true
    | some wv =>
      wv.children.all (fun c =>
        memB c R &&
          (match findV f c with
           | none => false
           | some cv => decide (cv.parent = some w) && !cv.isRoot)))

/-- `j` occurs in the child list of some member of `R`. -/
def childOfRB {C : Type} (f : Forest C) (R : List Nat) (j : Nat) : Bool :=
  R.any (fun w =>
    match findV f w with
    | none => false
    | some wv => memB j wv.children)

/-- Coherence package consumed by the preservation theorem: the child
lists of `R` stay inside `R`, parents inside `R` list their children, and
the cascade target belongs to `R`. -/
def cohB {C : Type} (f1 : Forest C) (t : Nat) (R : List Nat) : Prop :=
  childrenClosedB f1 R = true ∧ parentLinkedOnB f1 R = true ∧ t ∈ R


/-! Infinite-cost propagation: machinery for the `removeParent` cascade. -/

/-- One child-list edge: `b` occurs in `a`'s child list. -/
def childRel {C : Type} (f : Forest C) (a b : Nat) : Prop :=
  ∃ av, findV f a = some av ∧ b ∈ av.children

/-- `b` is a descendant of `a` through child lists. -/
def Desc {C : Type} (f : Forest C) (a b : Nat) : Prop :=
  Relation.ReflTransGen (childRel f) a b

/-- The update of `i` is about to write the infinite cost: `i` is a
non-root that is either disconnected or parented on a vertex already at
the infinite cost. -/
def infPre {C : Type} (ch : CostHelper C) (f : Forest C) (i : Nat) : Prop :=
  ∃ vi, findV f i = some vi ∧ vi.isRoot = false ∧
    (vi.parent = none ∨
      ∃ p pv, vi.parent = some p ∧ findV f p = some pv ∧ pv.cost = ch.infiniteCost)


/-! Time-parameterised state validity checking
(`ompl::base::StateValidityChecker::isValid(const State*, const double)`). -/

/-- Shallow embedding of the validity checker with the multi-robot
dynamic-obstacle extension: the virtual static check `isValid(state)`,
the pairwise check `areStatesValid(state, (si_other, state_other))` (an
obstacle entry `Obs` stands for the `(SpaceInformationPtr, State*)`
pair), the `scalingFactor_`, and the time-keyed obstacle map
`dynObstacles_` (a `std::map<int, set>`).  Time and the scaling factor
are rationals in place of C++ doubles. -/
structure DynChecker (State Obs : Type) where
  isValidStatic : State → Bool
  areStatesValid : State → Obs → Bool
  scalingFactor : ℚ
  dynObstacles : List (Int × List Obs)

/-- `std::round`: round half away from zero. -/
def cppRound (x : ℚ) : Int :=
  if 0 ≤ x then ⌊x + 1 / 2⌋ else -⌊-x + 1 / 2⌋

/-- `dynObstacles_.find(t_key)` (std::map lookup). -/
def lookupObs {Obs : Type} : List (Int × List Obs) → Int → Option (List Obs)
  | [], _ => none
  | kv :: rest, k => if kv.1 = k then some kv.2 else lookupObs rest k

/-- The obstacle entries stored under a key (empty when absent). -/
def obsAt {State Obs : Type} (c : DynChecker State Obs) (k : Int) : List Obs :=
  (lookupObs c.dynObstacles k).getD []

/-- `isValid(state, time)` (lines 974-999 of the third source document),
instrumented with the list of time keys looked up in the map: an empty
map short-circuits to the static check; otherwise, after a passing
static check, the key `round(time * scalingFactor_)` is consulted and
every obstacle entry stored there must satisfy `areStatesValid`. -/
def isValidT {State Obs : Type} (c : DynChecker State Obs) (s : State) (t : ℚ) :
    Bool × List Int :=
  if c.dynObstacles.isEmpty then (c.isValidStatic s, [])
  else
    if c.isValidStatic s then
      match lookupObs c.dynObstacles (cppRound (t * c.scalingFactor)) with
      | some obs => (obs.all (fun o => c.areStatesValid s o),
          [cppRound (t * c.scalingFactor)])
      | none => (true, [cppRound (t * c.scalingFactor)])
    else (false, [])

/-! Geodesic traversal of the Atlas (`AtlasStateSpace::followManifold`). -/

/-- Stop reasons of the geodesic traversal (spec: "reached",
"projection-failed", "chart-invalid", "collision", "too-far"; the fuel
bound of the embedding adds `budgetExhausted`). -/
inductive StopReason : Type
  | reached
  | projectionFailed
  | chartInvalid
  | collision
  | tooFar
  | budgetExhausted
  deriving DecidableEq

/-- Abstract geometry consumed by the traversal: ambient distance, the
single tangent-step-and-project operation of the atlas (`none` when the
projection fails), and the validity callback. -/
structure TraversalOps (X : Type) where
  dist : X → X → ℚ
  stepToward : X → X → Option X
  isValidCb : X → Bool

/-- Modelled from the spec: the loop of `AtlasStateSpace::followManifold`
(declared at AtlasStateSpace.h lines 850-855; its implementation is not
part of the sources, so this follows the design-level algorithm of the
spec).  Walk from `x` toward `to` in tangent steps of δ: stop "reached"
as soon as the remaining ambient distance is within δ (the tangent
direction is undefined at distance 0, so this check heads the loop,
which also realises the specified one-state trace for a self-traversal);
stop "projection-failed" when the step cannot be projected;
"chart-invalid" when the realised step exceeds 2δ; "collision" when not
interpolating and the validity callback rejects the new state; "too-far"
when the travelled distance exceeds λ times the straight-line distance;
otherwise record the state and continue. -/
def followAux {X : Type} (ops : TraversalOps X) (delta lam dstraight : ℚ) (goal : X)
    (interpolate : Bool) : Nat → X → ℚ → List X → StopReason × List X
  | 0, _, _, tr => (StopReason.budgetExhausted, tr)
  | Nat.succ fuel, x, travelled, tr =>
    if ops.dist x goal ≤ delta then (StopReason.reached, tr)
    else
      match ops.stepToward x goal with
      | none => (StopReason.projectionFailed, tr)
      | some xn =>
        if 2 * delta < ops.dist xn x then (StopReason.chartInvalid, tr)
        else if !interpolate && !ops.isValidCb xn then (StopReason.collision, tr)
        else if lam * dstraight < travelled + ops.dist xn x then (StopReason.tooFar, tr)
        else followAux ops delta lam dstraight goal interpolate fuel xn
          (travelled + ops.dist xn x) (tr ++ [xn])

/-- Modelled from the spec: `AtlasStateSpace::followManifold(from, to,
interpolate, stateList)` — the trace starts with a copy of `from`, and
the traversal reports whether the stop reason was "reached". -/
def followManifold {X : Type} (ops : TraversalOps X) (delta lam : ℚ) (fuel : Nat)
    (a b : X) (interpolate : Bool) : StopReason × List X :=
  followAux ops delta lam (ops.dist a b) b interpolate fuel a 0 [a]

/-! Concrete fixtures for the closed example theorems. -/

/-- A concrete instance of the CostHelper contract over `Option ℕ`:
`none` is the infinite cost (absorbing), `some 0` the identity, and
combination is addition. -/
def natCost : CostHelper (Option Nat) :=
  { identityCost := some 0
    infiniteCost := none
    combineCosts := fun a b =>
      match a, b with
      | some x, some y => some (x + y)
      | _, _ => none }

/-- Build a vertex record with the lifecycle flags cleared. -/
def mkV (root : Bool) (par : Option Nat) (cs : List Nat) (e c : Option Nat) (d : Nat)
    (pr : Bool) : Vertex (Option Nat) :=
  { isRoot := root, parent := par, children := cs, edgeCost := e, cost := c, depth := d,
    isNew := false, hasBeenExpandedToSamples := false, hasBeenExpandedToVertices := false,
    isPruned := pr }

/-- Root 0 with child 1 (edge 3), grandchild 2 (edge 4), plus a
disconnected vertex 3; the cost-cascade invariant holds. -/
def wForest : Forest (Option Nat) :=
  [(0, mkV true none [1] none (some 0) 0 false),
   (1, mkV false (some 0) [2] (some 3) (some 3) 1 false),
   (2, mkV false (some 1) [] (some 4) (some 7) 2 false),
   (3, mkV false none [] none none 0 false)]

/-- A forest holding a single pruned vertex. -/
def wPruned : Forest (Option Nat) :=
  [(0, mkV false none [] none none 0 true)]

/-- A validity checker with one dynamic obstacle stored under time
key 4; obstacle 1 fails the pairwise check. -/
def wChecker : DynChecker Nat Nat :=
  { isValidStatic := fun _ => true
    areStatesValid := fun _ o => decide (o = 0)
    scalingFactor := 10
    dynObstacles := [(4, [1])] }

/-- A validity checker with an empty dynamic-obstacle map. -/
def wCheckerEmpty : DynChecker Nat Nat :=
  { isValidStatic := fun s => decide (s = 0)
    areStatesValid := fun _ _ => true
    scalingFactor := 10
    dynObstacles := [] }

/-- Degenerate traversal geometry over ℕ: all distances 0. -/
def wOps : TraversalOps Nat :=
  { dist := fun _ _ => 0
    stepToward := fun _ y => some y
    isValidCb := fun _ => true }


/-! Skeleton preservation: `updateCostAndDepth` only ever writes the
`cost` and `depth` fields, so ids, roots, parents, children, edge costs
and pruned flags are untouched by any cascade, successful or not. -/

/-- Two vertex records that agree on everything except cost and depth. -/
def sameSkelV {C : Type} (x y : Vertex C) : Prop :=
  x.isRoot = y.isRoot ∧ x.parent = y.parent ∧ x.children = y.children ∧
    x.edgeCost = y.edgeCost ∧ x.isPruned = y.isPruned

/-- Lift `sameSkelV` to optional records. -/
def sameSkel {C : Type} : Option (Vertex C) → Option (Vertex C) → Prop
  | none, none => True
  | some x, some y => sameSkelV x y
  | _, _ => False

/-- `g` is `f` with some costs and depths rewritten. -/
def skelEq {C : Type} (f g : Forest C) : Prop :=
  keysV g = keysV f ∧ ∀ j, sameSkel (findV f j) (findV g j)


/-! Basic lemmas about `findV` / `setV` / `keysV`. -/

theorem memB_iff {j : Nat} {R : List Nat} : memB j R = true ↔ j ∈ R := by
  simp [memB, List.any_eq_true]


theorem findV_setV {C : Type} (f : Forest C) (i j : Nat) (v : Vertex C) :
    findV (setV f i v) j =
      if j = i then Option.map (fun _ => v) (findV f i) else findV f j := by
  induction f with
  | nil => simp [findV, setV]
  | cons kv rest ih =>
    simp only [setV, List.map_cons] at ih ⊢
    by_cases h1 : kv.1 = i
    · by_cases h2 : j = i
      · subst h2
        simp [findV, h1]
      · have hij : ¬ i = j := fun hh => h2 hh.symm
        have hkj : ¬ kv.1 = j := by rw [h1]; exact hij
        simp [findV, h1, h2, hij, hkj, ih]
    · by_cases h2 : kv.1 = j
      · have hji : ¬ j = i := fun hh => h1 (h2.trans hh)
        simp [findV, h1, h2, hji]
      · simp [findV, h1, h2, ih]

theorem findV_setV_self {C : Type} {f : Forest C} {i : Nat} {w : Vertex C} (v : Vertex C)
    (h : findV f i = some w) : findV (setV f i v) i = some v := by
  simp [findV_setV, h]

theorem findV_setV_ne {C : Type} (f : Forest C) {i j : Nat} (v : Vertex C)
    (h : j ≠ i) : findV (setV f i v) j = findV f j := by
  simp [findV_setV, h]

theorem setV_setV {C : Type} (f : Forest C) (i : Nat) (a b : Vertex C) :
    setV (setV f i a) i b = setV f i b := by
  simp only [setV, List.map_map]
  congr 1
  funext kv
  by_cases h : kv.1 = i <;> simp [h, Function.comp]

theorem keysV_setV {C : Type} (f : Forest C) (i : Nat) (v : Vertex C) :
    keysV (setV f i v) = keysV f := by
  simp only [keysV, setV, List.map_map]
  congr 1
  funext kv
  by_cases h : kv.1 = i <;> simp [h, Function.comp]

theorem findV_eq_none_of_not_mem_keys {C : Type} {f : Forest C} {j : Nat}
    (h : ¬ j ∈ keysV f) : findV f j = none := by
  induction f with
  | nil => rfl
  | cons kv rest ih =>
    simp only [keysV, List.map_cons, List.mem_cons] at h
    push_neg at h
    simp only [findV]
    rw [if_neg (fun hh => h.1 hh.symm)]
    exact ih (by simpa [keysV] using h.2)

theorem sameSkelV_refl {C : Type} (x : Vertex C) : sameSkelV x x :=
  ⟨rfl, rfl, rfl, rfl, rfl⟩

theorem sameSkelV_trans {C : Type} {x y z : Vertex C}
    (h1 : sameSkelV x y) (h2 : sameSkelV y z) : sameSkelV x z :=
  ⟨h1.1.trans h2.1, h1.2.1.trans h2.2.1, h1.2.2.1.trans h2.2.2.1,
    h1.2.2.2.1.trans h2.2.2.2.1, h1.2.2.2.2.trans h2.2.2.2.2⟩

theorem sameSkel_refl {C : Type} (o : Option (Vertex C)) : sameSkel o o := by
  cases o with
  | none => trivial
  | some x => exact sameSkelV_refl x

theorem sameSkel_trans {C : Type} {a b c : Option (Vertex C)}
    (h1 : sameSkel a b) (h2 : sameSkel b c) : sameSkel a c := by
  cases a <;> cases b <;> cases c <;> simp_all [sameSkel]
  exact sameSkelV_trans h1 h2

theorem skelEq_refl {C : Type} (f : Forest C) : skelEq f f :=
  ⟨rfl, fun j => sameSkel_refl (findV f j)⟩

theorem skelEq_trans {C : Type} {f g h : Forest C}
    (h1 : skelEq f g) (h2 : skelEq g h) : skelEq f h :=
  ⟨h2.1.trans h1.1, fun j => sameSkel_trans (h1.2 j) (h2.2 j)⟩

theorem skelEq_setV {C : Type} {f : Forest C} {i : Nat} {v : Vertex C}
    (hfi : findV f i = some v) (v' : Vertex C) (hs : sameSkelV v v') :
    skelEq f (setV f i v') := by
  refine ⟨keysV_setV f i v', fun j => ?_⟩
  rw [findV_setV]
  by_cases hj : j = i
  · subst hj
    rw [if_pos rfl, hfi]
    exact hs
  · rw [if_neg hj]
    exact sameSkel_refl (findV f j)

theorem skelEq_findV_some {C : Type} {f g : Forest C} {j : Nat} {jv : Vertex C}
    (h : skelEq f g) (hj : findV f j = some jv) :
    ∃ jv', findV g j = some jv' ∧ sameSkelV jv jv' := by
  have := h.2 j
  rw [hj] at this
  cases hg : findV g j with
  | none => rw [hg] at this; exact absurd this (by simp [sameSkel])
  | some jv' => rw [hg] at this; exact ⟨jv', rfl, this⟩

theorem skelEq_findV_some_rev {C : Type} {f g : Forest C} {j : Nat} {jv' : Vertex C}
    (h : skelEq f g) (hj : findV g j = some jv') :
    ∃ jv, findV f j = some jv ∧ sameSkelV jv jv' := by
  have := h.2 j
  rw [hj] at this
  cases hg : findV f j with
  | none => rw [hg] at this; exact absurd this (by simp [sameSkel])
  | some jv => rw [hg] at this; exact ⟨jv, rfl, this⟩

theorem skelEq_findV_none {C : Type} {f g : Forest C} {j : Nat}
    (h : skelEq f g) (hj : findV f j = none) : findV g j = none := by
  have := h.2 j
  rw [hj] at this
  cases hg : findV g j with
  | none => rfl
  | some jv' => rw [hg] at this; exact absurd this (by simp [sameSkel])

/-- The forest left behind by any run of the cascade interpreter — error
or not — has the same skeleton as the input forest. -/
theorem run_skel {C : Type} (ch : CostHelper C) (debug : Bool) :
    ∀ (fuel : Nat) (f : Forest C) (t : Task), skelEq f (run ch debug fuel f t).1 := by
  intro fuel
  induction fuel with
  | zero => intro f t; exact skelEq_refl f
  | succ fuel ih =>
    intro f t
    cases t with
    | upd i cascade =>
      simp only [run]
      cases hfi : findV f i with
      | none => exact skelEq_refl f
      | some v =>
        have hskel2 : ∀ (cst : C) (dep : Nat),
            skelEq f (setV f i { v with cost := cst, depth := dep }) :=
          fun cst dep => skelEq_setV hfi _ ⟨rfl, rfl, rfl, rfl, rfl⟩
        have hskel1 : ∀ (cst : C), skelEq f (setV f i { v with cost := cst }) :=
          fun cst => skelEq_setV hfi _ ⟨rfl, rfl, rfl, rfl, rfl⟩
        dsimp only
        split
        · exact skelEq_refl f
        · split
          · -- root branch
            split
            · exact skelEq_trans (hskel2 _ _) (ih _ _)
            · exact hskel2 _ _
          · split
            · -- disconnected branch
              split
              · exact hskel2 _ _
              · split
                · exact skelEq_trans (hskel2 _ _) (ih _ _)
                · exact hskel2 _ _
            · -- parented branch
              split
              · exact skelEq_refl f
              · split
                · exact skelEq_refl f
                · split
                  · exact hskel1 _
                  · rw [setV_setV]
                    split
                    · exact skelEq_trans (hskel2 _ _) (ih _ _)
                    · exact hskel2 _ _
    | kids cs =>
      cases cs with
      | nil => exact skelEq_refl f
      | cons c rest =>
        simp only [run]
        cases hfc : findV f c with
        | none => exact skelEq_refl f
        | some cv =>
          dsimp only
          cases hr : run ch debug fuel f (Task.upd c true) with
          | mk f1 e =>
            have h1 : skelEq f f1 := by
              have := ih f (Task.upd c true)
              rw [hr] at this
              exact this
            cases e with
            | none => exact skelEq_trans h1 (ih f1 (Task.kids rest))
            | some err => exact h1

theorem childrenClosedB_of_skel {C : Type} {f g : Forest C} {R : List Nat}
    (h : skelEq f g) (hc : childrenClosedB f R = true) : childrenClosedB g R = true := by
  simp only [childrenClosedB, List.all_eq_true] at hc ⊢
  intro w hw
  cases hgw : findV g w with
  | none => simp
  | some wv' =>
    obtain ⟨wv, hfw, hs⟩ := skelEq_findV_some_rev h hgw
    have hcw := hc w hw
    rw [hfw] at hcw
    simp only at hcw ⊢
    rw [← hs.2.2.1]
    exact hcw

theorem parentLinkedOnB_of_skel {C : Type} {f g : Forest C} {R : List Nat}
    (h : skelEq f g) (hc : parentLinkedOnB f R = true) : parentLinkedOnB g R = true := by
  simp only [parentLinkedOnB, List.all_eq_true] at hc ⊢
  intro j hj
  rw [h.1] at hj
  cases hgj : findV g j with
  | none => simp
  | some jv' =>
    obtain ⟨jv, hfj, hs⟩ := skelEq_findV_some_rev h hgj
    have hcj := hc j hj
    rw [hfj] at hcj
    simp only at hcj ⊢
    rw [← hs.2.1]
    cases hp : jv.parent with
    | none => simp
    | some p =>
      rw [hp] at hcj
      simp only at hcj ⊢
      cases hmp : memB p R with
      | false => simp [hmp]
      | true =>
        rw [hmp] at hcj
        simp only [Bool.not_true, Bool.false_or] at hcj ⊢
        cases hfp : findV f p with
        | none => rw [hfp] at hcj; simp at hcj
        | some pv =>
          rw [hfp] at hcj
          obtain ⟨pv', hgp, hps⟩ := skelEq_findV_some h hfp
          rw [hgp]
          simp only at hcj ⊢
          rw [← hps.2.2.1]
          exact hcj

theorem childCoherentOnB_of_skel {C : Type} {f g : Forest C} {R : List Nat}
    (h : skelEq f g) (hc : childCoherentOnB f R = true) : childCoherentOnB g R = true := by
  simp only [childCoherentOnB, List.all_eq_true] at hc ⊢
  intro w hw
  cases hgw : findV g w with
  | none => simp
  | some wv' =>
    obtain ⟨wv, hfw, hs⟩ := skelEq_findV_some_rev h hgw
    have hcw := hc w hw
    rw [hfw] at hcw
    simp only at hcw ⊢
    rw [← hs.2.2.1]
    simp only [List.all_eq_true] at hcw ⊢
    intro c hcmem
    have hcc := hcw c hcmem
    rcases (Bool.and_eq_true _ _).mp hcc with ⟨hcr, hrest⟩
    refine (Bool.and_eq_true _ _).mpr ⟨hcr, ?_⟩
    cases hfc : findV f c with
    | none => rw [hfc] at hrest; simp at hrest
    | some cv =>
      rw [hfc] at hrest
      obtain ⟨cv', hgc, hcs⟩ := skelEq_findV_some h hfc
      rw [hgc]
      simp only at hrest ⊢
      rw [← hcs.2.1, ← hcs.1]
      exact hrest

theorem childOfRB_of_skel_rev {C : Type} {f g : Forest C} {R : List Nat} {j : Nat}
    (h : skelEq f g) (hc : childOfRB g R j = true) : childOfRB f R j = true := by
  simp only [childOfRB, List.any_eq_true] at hc ⊢
  obtain ⟨w, hw, hmatch⟩ := hc
  refine ⟨w, hw, ?_⟩
  cases hgw : findV g w with
  | none => rw [hgw] at hmatch; simp at hmatch
  | some wv' =>
    rw [hgw] at hmatch
    obtain ⟨wv, hfw, hs⟩ := skelEq_findV_some_rev h hgw
    rw [hfw]
    simp only at hmatch ⊢
    rw [hs.2.2.1]
    exact hmatch

theorem mem_keys_of_findV_some {C : Type} {f : Forest C} {j : Nat} {jv : Vertex C}
    (h : findV f j = some jv) : j ∈ keysV f := by
  induction f with
  | nil => simp [findV] at h
  | cons kv rest ih =>
    simp only [findV] at h
    by_cases hk : kv.1 = j
    · simp only [keysV, List.map_cons, List.mem_cons]
      exact Or.inl hk.symm
    · rw [if_neg hk] at h
      simp only [keysV, List.map_cons, List.mem_cons]
      exact Or.inr (by simpa [keysV] using ih h)

theorem pairErrFalse {C : Type} {g f' : Forest C} {e : VErr} (h : (g, some e) = (f', none)) :
    False := by
  simpa using congrArg Prod.snd h

theorem parentLinkedOn_extract {C : Type} {f : Forest C} {R : List Nat} {j p : Nat}
    {jv pv : Vertex C} (hl : parentLinkedOnB f R = true) (hfj : findV f j = some jv)
    (hjp : jv.parent = some p) (hpR : p ∈ R) (hfp : findV f p = some pv) :
    j ∈ pv.children := by
  simp only [parentLinkedOnB, List.all_eq_true] at hl
  have h := hl j (mem_keys_of_findV_some hfj)
  rw [hfj] at h
  simp only [hjp, hfp, memB_iff.mpr hpR, Bool.not_true, Bool.false_or] at h
  exact memB_iff.mp h

theorem childrenClosed_extract {C : Type} {f : Forest C} {R : List Nat} {i : Nat}
    {v : Vertex C} (hc : childrenClosedB f R = true) (hiR : i ∈ R)
    (hfi : findV f i = some v) : ∀ c ∈ v.children, c ∈ R := by
  simp only [childrenClosedB, List.all_eq_true] at hc
  have h := hc i hiR
  rw [hfi] at h
  simp only [List.all_eq_true] at h
  intro c hcmem
  exact memB_iff.mp (h c hcmem)

/-- Closing a cascade step: writing a new cost/depth record `u` at `i`
neither dirties any vertex outside `i`'s child list (thanks to the
parent/child-list coherence on `R`) nor leaves `i` itself dirty. -/
theorem dirty_step {C : Type} [DecidableEq C] (ch : CostHelper C) {f : Forest C} {i : Nat}
    {v u : Vertex C} {R : List Nat}
    (hfi : findV f i = some v)
    (hlinked : parentLinkedOnB f R = true) (hiR : i ∈ R)
    (hoki : costOkAtB ch (setV f i u) i = true ∨ i ∈ v.children) :
    ∀ j, ¬ j ∈ v.children → costOkAtB ch (setV f i u) j = false →
      costOkAtB ch f j = false ∧ j ≠ i := by
  intro j hjcs hj2
  by_cases hji : j = i
  · subst hji
    rcases hoki with hok | hok
    · rw [hok] at hj2; cases hj2
    · exact absurd hok hjcs
  · refine ⟨?_, hji⟩
    cases hfj : findV f j with
    | none =>
      rw [costOkAtB, findV_setV_ne f u hji, hfj] at hj2
      cases hj2
    | some jv =>
      cases hjr : jv.isRoot with
      | true =>
        rw [costOkAtB, findV_setV_ne f u hji, hfj] at hj2
        simp [hjr] at hj2
      | false =>
        cases hjp : jv.parent with
        | none =>
          rw [costOkAtB, findV_setV_ne f u hji, hfj] at hj2
          simp [hjr, hjp] at hj2
        | some p =>
          by_cases hpi : p = i
          · have hl := parentLinkedOn_extract hlinked hfj (hpi ▸ hjp) hiR hfi
            exact absurd hl hjcs
          · have heq : costOkAtB ch (setV f i u) j = costOkAtB ch f j := by
              rw [costOkAtB, costOkAtB, findV_setV_ne f u hji, hfj]
              simp only [hjr, hjp, Bool.false_eq_true, if_false]
              rw [findV_setV_ne f u hpi]
            rw [heq] at hj2
            exact hj2

/-- A successful run of the cascade interpreter never dirties a clean
vertex and cleans its own target(s), provided the child lists of `R`
stay inside `R` and parents inside `R` list their children. -/
theorem run_dirty {C : Type} [DecidableEq C] (ch : CostHelper C) (debug : Bool) :
    ∀ (fuel : Nat) (f : Forest C) (t : Task) (R : List Nat) (f' : Forest C),
      childrenClosedB f R = true → parentLinkedOnB f R = true →
      (match t with
       | Task.upd _ cascade => cascade = true
       | Task.kids _ => True) →
      (match t with
       | Task.upd i _ => i ∈ R
       | Task.kids cs => ∀ c ∈ cs, c ∈ R) →
      run ch debug fuel f t = (f', none) →
      ∀ j, costOkAtB ch f' j = false →
        costOkAtB ch f j = false ∧
          (match t with
           | Task.upd i _ => j ≠ i
           | Task.kids cs => ¬ j ∈ cs) := by
  intro fuel
  induction fuel with
  | zero =>
    intro f t R f' _ _ _ _ hrun
    exact absurd hrun (by simp [run])
  | succ fuel ih =>
    intro f t R f' hclosed hlinked hcas hmem hrun
    cases t with
    | upd i cascade =>
      obtain rfl : cascade = true := hcas
      have hiR : i ∈ R := hmem
      simp only [run] at hrun
      cases hfi : findV f i with
      | none => rw [hfi] at hrun; exact absurd hrun (by simp)
      | some v =>
        rw [hfi] at hrun
        have hkidsR : ∀ c ∈ v.children, c ∈ R := by
          simp only [childrenClosedB, List.all_eq_true] at hclosed
          have h2 := hclosed i hiR
          rw [hfi] at h2
          simp only [List.all_eq_true] at h2
          intro c hc
          exact memB_iff.mp (h2 c hc)
        dsimp only at hrun
        split at hrun
        · exact absurd hrun (fun h => pairErrFalse h)
        · split at hrun
          · -- root branch
            split at hrun
            · -- cascade (true)
              have hskel : skelEq f
                  (setV f i { v with cost := ch.identityCost, depth := 0 }) :=
                skelEq_setV hfi _ ⟨rfl, rfl, rfl, rfl, rfl⟩
              have hrec := ih _ (Task.kids v.children) R f'
                (childrenClosedB_of_skel hskel hclosed)
                (parentLinkedOnB_of_skel hskel hlinked) trivial hkidsR hrun
              intro j hj
              obtain ⟨hd2, hncs⟩ := hrec j hj
              have hstep := dirty_step ch hfi hlinked hiR
                (u := { v with cost := ch.identityCost, depth := 0 })
                (Or.inl (by
                  rw [costOkAtB, findV_setV_self _ hfi]
                  simp_all)) j hncs hd2
              exact ⟨hstep.1, hstep.2⟩
            · simp_all
          · split at hrun
            · -- disconnected branch
              split at hrun
              · exact absurd hrun (fun h => pairErrFalse h)
              · split at hrun
                · have hskel : skelEq f
                      (setV f i { v with cost := ch.infiniteCost, depth := 0 }) :=
                    skelEq_setV hfi _ ⟨rfl, rfl, rfl, rfl, rfl⟩
                  have hrec := ih _ (Task.kids v.children) R f'
                    (childrenClosedB_of_skel hskel hclosed)
                    (parentLinkedOnB_of_skel hskel hlinked) trivial hkidsR hrun
                  intro j hj
                  obtain ⟨hd2, hncs⟩ := hrec j hj
                  have hstep := dirty_step ch hfi hlinked hiR
                    (u := { v with cost := ch.infiniteCost, depth := 0 })
                    (Or.inl (by
                      rw [costOkAtB, findV_setV_self _ hfi]
                      simp_all)) j hncs hd2
                  exact ⟨hstep.1, hstep.2⟩
                · simp_all
            · -- parented branch
              rename_i hnroot hpx p hp
              split at hrun
              · exact absurd hrun (fun h => pairErrFalse h)
              · rename_i pv hpv
                split at hrun
                · exact absurd hrun (fun h => pairErrFalse h)
                · split at hrun
                  · exact absurd hrun (fun h => pairErrFalse h)
                  · rw [setV_setV] at hrun
                    split at hrun
                    · have hskel : skelEq f
                          (setV f i { v with cost := ch.combineCosts pv.cost v.edgeCost,
                                              depth := (pv.depth + 1) % UINT32 }) :=
                        skelEq_setV hfi _ ⟨rfl, rfl, rfl, rfl, rfl⟩
                      have hrec := ih _ (Task.kids v.children) R f'
                        (childrenClosedB_of_skel hskel hclosed)
                        (parentLinkedOnB_of_skel hskel hlinked) trivial hkidsR hrun
                      intro j hj
                      obtain ⟨hd2, hncs⟩ := hrec j hj
                      have hoki : costOkAtB ch
                          (setV f i { v with cost := ch.combineCosts pv.cost v.edgeCost,
                                              depth := (pv.depth + 1) % UINT32 }) i = true ∨
                          i ∈ v.children := by
                        by_cases hpi : p = i
                        · exact Or.inr (parentLinkedOn_extract hlinked hfi (hpi ▸ hp) hiR hfi)
                        · refine Or.inl ?_
                          rw [costOkAtB, findV_setV_self _ hfi]
                          simp only
                          rw [if_neg (by simp_all), hp]
                          simp only
                          rw [findV_setV_ne f _ hpi, hpv]
                          simp
                      have hstep := dirty_step ch hfi hlinked hiR
                        (u := { v with cost := ch.combineCosts pv.cost v.edgeCost,
                                        depth := (pv.depth + 1) % UINT32 })
                        hoki j hncs hd2
                      exact ⟨hstep.1, hstep.2⟩
                    · simp_all
    | kids cs =>
      cases cs with
      | nil =>
        have hf : f' = f := by
          have := congrArg Prod.fst hrun
          simpa [run] using this.symm
        subst hf
        intro j hj
        exact ⟨hj, by simp⟩
      | cons c rest =>
        simp only [run] at hrun
        cases hfc : findV f c with
        | none => rw [hfc] at hrun; exact absurd hrun (by simp)
        | some cv =>
          rw [hfc] at hrun
          dsimp only at hrun
          cases hr1 : run ch debug fuel f (Task.upd c true) with
          | mk f1 e1 =>
            rw [hr1] at hrun
            cases e1 with
            | some err => exact absurd hrun (fun h => pairErrFalse h)
            | none =>
              have hcR : c ∈ R := hmem c (List.mem_cons_self c rest)
              have hrestR : ∀ x ∈ rest, x ∈ R := fun x hx => hmem x (List.mem_cons_of_mem c hx)
              have hskel : skelEq f f1 := by
                have := run_skel ch debug fuel f (Task.upd c true)
                rw [hr1] at this
                exact this
              have hrec1 := ih f (Task.upd c true) R f1 hclosed hlinked rfl hcR hr1
              have hrec2 := ih f1 (Task.kids rest) R f'
                (childrenClosedB_of_skel hskel hclosed)
                (parentLinkedOnB_of_skel hskel hlinked) trivial hrestR hrun
              intro j hj
              obtain ⟨hd1, hnrest⟩ := hrec2 j hj
              obtain ⟨hd0, hnc⟩ := hrec1 j hd1
              exact ⟨hd0, by
                simp only [List.mem_cons, not_or]
                exact ⟨hnc, hnrest⟩⟩

/-! From the dirty lemma to the global invariant. -/

theorem costOkAtB_true_of_none {C : Type} [DecidableEq C] (ch : CostHelper C)
    {f : Forest C} {j : Nat} (h : findV f j = none) : costOkAtB ch f j = true := by
  rw [costOkAtB, h]

theorem costOk_all_of_inv {C : Type} [DecidableEq C] {ch : CostHelper C} {f : Forest C}
    (h : cascadeInvB ch f = true) : ∀ j, costOkAtB ch f j = true := by
  intro j
  cases hj : findV f j with
  | none => exact costOkAtB_true_of_none ch hj
  | some jv =>
    simp only [cascadeInvB, List.all_eq_true] at h
    exact h j (mem_keys_of_findV_some hj)

/-- Writing a record with unchanged cost and depth at `i` leaves every
other vertex's cost-cascade status untouched. -/
theorem costOk_stage {C : Type} [DecidableEq C] (ch : CostHelper C) {f : Forest C}
    {i : Nat} {v u : Vertex C} (hfi : findV f i = some v)
    (hcost : u.cost = v.cost) (hdep : u.depth = v.depth) :
    ∀ j, j ≠ i → costOkAtB ch (setV f i u) j = costOkAtB ch f j := by
  intro j hji
  rw [costOkAtB, costOkAtB, findV_setV_ne f u hji]
  cases hfj : findV f j with
  | none => rfl
  | some jv =>
    simp only
    cases hjr : jv.isRoot with
    | true => simp
    | false =>
      simp only [Bool.false_eq_true, if_false]
      cases hjp : jv.parent with
      | none => rfl
      | some pj =>
        simp only
        by_cases hpi : pj = i
        · subst hpi
          rw [findV_setV_self u hfi, hfi]
          simp only [hcost, hdep]
        · rw [findV_setV_ne f u hpi]

/-- Writing a record that differs only in its child list changes no
vertex's cost-cascade status at all. -/
theorem costOk_congr {C : Type} [DecidableEq C] (ch : CostHelper C) {f : Forest C}
    {i : Nat} {v u : Vertex C} (hfi : findV f i = some v)
    (hroot : u.isRoot = v.isRoot) (hpar : u.parent = v.parent)
    (hedge : u.edgeCost = v.edgeCost) (hcost : u.cost = v.cost) (hdep : u.depth = v.depth) :
    ∀ j, costOkAtB ch (setV f i u) j = costOkAtB ch f j := by
  intro j
  by_cases hji : j = i
  · subst hji
    rw [costOkAtB, costOkAtB, findV_setV_self u hfi, hfi]
    simp only [hroot, hpar, hedge, hcost, hdep]
    cases hjr : v.isRoot with
    | true => simp
    | false =>
      simp only [Bool.false_eq_true, if_false]
      cases hjp : v.parent with
      | none => rfl
      | some pj =>
        simp only
        by_cases hpi : pj = j
        · subst hpi
          rw [findV_setV_self u hfi, hfi]
          simp only [hcost, hdep]
        · rw [findV_setV_ne f u hpi]
  · exact costOk_stage ch hfi hcost hdep j hji

theorem cascadeInv_of_dirty {C : Type} [DecidableEq C] {ch : CostHelper C}
    {f1 f' : Forest C} {t : Nat}
    (hd : ∀ j, costOkAtB ch f' j = false → costOkAtB ch f1 j = false ∧ j ≠ t)
    (hclean : ∀ j, j ≠ t → costOkAtB ch f1 j = true) :
    cascadeInvB ch f' = true := by
  simp only [cascadeInvB, List.all_eq_true]
  intro j _
  cases hcf : costOkAtB ch f' j with
  | true => rfl
  | false =>
    obtain ⟨h1, h2⟩ := hd j hcf
    rw [hclean j h2] at h1
    cases h1

/-- The op-independent core: a successful `updateCostAndDepth` cascade on
a forest that is clean except possibly at the target reestablishes the
global cost-cascade invariant. -/
theorem ucd_preserves_inv {C : Type} [DecidableEq C] {ch : CostHelper C} {debug : Bool}
    {fuel : Nat} {f1 f' : Forest C} {t : Nat} {R : List Nat}
    (hrun : updateCostAndDepth ch debug fuel f1 t true = (f', none))
    (hcoh : cohB f1 t R)
    (hclean : ∀ j, j ≠ t → costOkAtB ch f1 j = true) :
    cascadeInvB ch f' = true := by
  have hd := run_dirty ch debug fuel f1 (Task.upd t true) R f'
    hcoh.1 hcoh.2.1 rfl hcoh.2.2 hrun
  exact cascadeInv_of_dirty (fun j hj => hd j hj) hclean

/-! Inversion lemmas: a successful mutator boils down to a successful
cascade on the staged forest. -/

theorem addParent_run {C : Type} {ch : CostHelper C} {debug : Bool} {fuel : Nat}
    {f f' : Forest C} {i p : Nat} {e : C} {cascade : Bool} {v : Vertex C}
    (hfi : findV f i = some v)
    (h : Op.addParent ch debug fuel f i p e cascade = (f', none)) :
    updateCostAndDepth ch debug fuel
      (setV f i { v with parent := some p, edgeCost := e }) i cascade = (f', none) := by
  simp only [Op.addParent, hfi] at h
  split at h
  · exact absurd h (fun hh => pairErrFalse hh)
  · split at h
    · exact absurd h (fun hh => pairErrFalse hh)
    · split at h
      · exact absurd h (fun hh => pairErrFalse hh)
      · exact h

theorem removeParent_run {C : Type} {ch : CostHelper C} {debug : Bool} {fuel : Nat}
    {f f' : Forest C} {i : Nat} {cascade : Bool} {v : Vertex C}
    (hfi : findV f i = some v)
    (h : Op.removeParent ch debug fuel f i cascade = (f', none)) :
    updateCostAndDepth ch debug fuel (setV f i { v with parent := none }) i cascade
      = (f', none) := by
  simp only [Op.removeParent, hfi] at h
  split at h
  · exact absurd h (fun hh => pairErrFalse hh)
  · split at h
    · exact absurd h (fun hh => pairErrFalse hh)
    · split at h
      · exact absurd h (fun hh => pairErrFalse hh)
      · exact h

theorem addChild_run {C : Type} {ch : CostHelper C} {debug : Bool} {fuel : Nat}
    {f f' : Forest C} {i c : Nat} {v : Vertex C}
    (hfi : findV f i = some v)
    (h : Op.addChild ch debug fuel f i c true = (f', none)) :
    updateCostAndDepth ch debug fuel
      (setV f i { v with children := v.children ++ [c] }) c true = (f', none) := by
  simp only [Op.addChild, hfi] at h
  split at h
  · exact absurd h (fun hh => pairErrFalse hh)
  · simpa using h

theorem removeChild_run {C : Type} {ch : CostHelper C} {debug : Bool} {fuel : Nat}
    {f f' : Forest C} {i c : Nat} {v : Vertex C} {idx : Option Nat}
    (hfi : findV f i = some v)
    (hscan : Op.findChildIdx debug f c v.children 0 = Except.ok idx)
    (h : Op.removeChild ch debug fuel f i c true = (f', none)) :
    updateCostAndDepth ch debug fuel
      (setV f i { v with children := (match idx with
                                      | some k => Op.swapPop v.children k
                                      | none => v.children) }) c true = (f', none) := by
  cases idx with
  | some k =>
    simp only [Op.removeChild, hfi] at h
    split at h
    · exact absurd h (fun hh => pairErrFalse hh)
    · rw [hscan] at h
      simp only [if_true] at h
      cases hr : updateCostAndDepth ch debug fuel
          (setV f i { v with children := Op.swapPop v.children k }) c true with
      | mk f2 e2 =>
        rw [hr] at h
        cases e2 with
        | some err => simp at h
        | none =>
          simp only [Option.isNone_some, Bool.and_false] at h
          rw [if_neg (by simp)] at h
          have hf : f2 = f' := congrArg Prod.fst h
          subst hf
          rfl
  | none =>
    simp only [Op.removeChild, hfi] at h
    split at h
    · exact absurd h (fun hh => pairErrFalse hh)
    · rw [hscan] at h
      simp only [if_true] at h
      cases hr : updateCostAndDepth ch debug fuel
          (setV f i { v with children := v.children }) c true with
      | mk f2 e2 =>
        rw [hr] at h
        cases e2 with
        | some err => simp at h
        | none =>
          simp only [Option.isNone_none, Bool.and_true] at h
          cases debug with
          | false =>
            rw [if_neg (by simp)] at h
            have hf : f2 = f' := congrArg Prod.fst h
            subst hf
            rfl
          | true =>
            rw [if_pos rfl] at h
            exact absurd h (fun hh => pairErrFalse hh)

theorem ucd_parent_present {C : Type} {ch : CostHelper C} {debug : Bool} {fuel : Nat}
    {f f' : Forest C} {i p : Nat} {v : Vertex C} {cascade : Bool}
    (hfi : findV f i = some v) (hroot : v.isRoot = false) (hpar : v.parent = some p)
    (hrun : updateCostAndDepth ch debug fuel f i cascade = (f', none)) :
    ∃ pv, findV f p = some pv := by
  cases fuel with
  | zero => exact absurd hrun (by simp [updateCostAndDepth, run])
  | succ fuel =>
    simp only [updateCostAndDepth, run, hfi] at hrun
    rw [hpar] at hrun
    dsimp only at hrun
    split at hrun
    · exact absurd hrun (fun hh => pairErrFalse hh)
    · split at hrun
      · simp_all
      · cases hfp : findV f p with
        | none => rw [hfp] at hrun; exact absurd hrun (by simp)
        | some pv => exact ⟨pv, rfl⟩

theorem costOk_extract {C : Type} [DecidableEq C] {ch : CostHelper C} {f : Forest C}
    {i p : Nat} {vi pv : Vertex C} (h : costOkAtB ch f i = true) (hfi : findV f i = some vi)
    (hroot : vi.isRoot = false) (hpar : vi.parent = some p) (hfp : findV f p = some pv) :
    vi.cost = ch.combineCosts pv.cost vi.edgeCost ∧ vi.depth = (pv.depth + 1) % UINT32 := by
  rw [costOkAtB, hfi] at h
  simp only [hroot, hpar, hfp, Bool.false_eq_true, if_false] at h
  exact ⟨of_decide_eq_true ((Bool.and_eq_true _ _).mp h).1,
    of_decide_eq_true ((Bool.and_eq_true _ _).mp h).2⟩

/-- C1.  The cost-cascade invariant — every non-root vertex with a
(present) parent carries `combineCosts (parent cost) edgeCost` and depth
`parent depth + 1` (unsigned arithmetic), as captured by `cascadeInvB` —
is preserved by each of the five mutations run with cascade:
`addParent`, `removeParent`, `addChild`, `removeChild` and a direct
`updateCostAndDepth(true)`, on any forest whose parent pointers and child
lists are coherent around the cascade (the `cohB` package on the staged
forest).  In particular, immediately after `addParent i p e` on a
non-root vertex, `i`'s cost is `combineCosts (p's cost) e` and its depth
is `p`'s depth + 1. -/
theorem costCascade_invariant_preserved {C : Type} [DecidableEq C] (ch : CostHelper C)
    (debug : Bool) (fuel : Nat) :
    (∀ (f f' : Forest C) (i p : Nat) (e : C) (v : Vertex C) (R : List Nat),
      findV f i = some v →
      Op.addParent ch debug fuel f i p e true = (f', none) →
      cascadeInvB ch f = true →
      cohB (setV f i { v with parent := some p, edgeCost := e }) i R →
      cascadeInvB ch f' = true ∧
        (∀ vi', findV f' i = some vi' → vi'.isRoot = false →
          ∃ pv', findV f' p = some pv' ∧
            vi'.cost = ch.combineCosts pv'.cost e ∧
            vi'.depth = (pv'.depth + 1) % UINT32)) ∧
    (∀ (f f' : Forest C) (i : Nat) (v : Vertex C) (R : List Nat),
      findV f i = some v →
      Op.removeParent ch debug fuel f i true = (f', none) →
      cascadeInvB ch f = true →
      cohB (setV f i { v with parent := none }) i R →
      cascadeInvB ch f' = true) ∧
    (∀ (f f' : Forest C) (i c : Nat) (v : Vertex C) (R : List Nat),
      findV f i = some v →
      Op.addChild ch debug fuel f i c true = (f', none) →
      cascadeInvB ch f = true →
      cohB (setV f i { v with children := v.children ++ [c] }) c R →
      cascadeInvB ch f' = true) ∧
    (∀ (f f' : Forest C) (i c : Nat) (v : Vertex C) (l : List Nat) (R : List Nat),
      findV f i = some v →
      (Op.findChildIdx debug f c v.children 0 = Except.ok none ∧ l = v.children ∨
        ∃ k, Op.findChildIdx debug f c v.children 0 = Except.ok (some k) ∧
          l = Op.swapPop v.children k) →
      Op.removeChild ch debug fuel f i c true = (f', none) →
      cascadeInvB ch f = true →
      cohB (setV f i { v with children := l }) c R →
      cascadeInvB ch f' = true) ∧
    (∀ (f f' : Forest C) (i : Nat) (R : List Nat),
      updateCostAndDepth ch debug fuel f i true = (f', none) →
      cascadeInvB ch f = true →
      cohB f i R →
      cascadeInvB ch f' = true) := by
  refine ⟨?_, ?_, ?_, ?_, ?_⟩
  · -- addParent
    intro f f' i p e v R hfi hop hinv hcoh
    have hrun := addParent_run hfi hop
    have hf1i : findV (setV f i { v with parent := some p, edgeCost := e }) i
        = some { v with parent := some p, edgeCost := e } := findV_setV_self _ hfi
    have hclean : ∀ j, j ≠ i →
        costOkAtB ch (setV f i { v with parent := some p, edgeCost := e }) j = true :=
      fun j hj => (costOk_stage ch (u := { v with parent := some p, edgeCost := e })
        hfi rfl rfl j hj).trans (costOk_all_of_inv hinv j)
    have hinvf' := ucd_preserves_inv hrun hcoh hclean
    refine ⟨hinvf', ?_⟩
    intro vi' hvi' hroot'
    have hskel : skelEq (setV f i { v with parent := some p, edgeCost := e }) f' := by
      have h2 : run ch debug fuel (setV f i { v with parent := some p, edgeCost := e })
          (Task.upd i true) = (f', none) := hrun
      have := run_skel ch debug fuel (setV f i { v with parent := some p, edgeCost := e })
        (Task.upd i true)
      rw [h2] at this
      exact this
    obtain ⟨vi'', hvi'', hs⟩ := skelEq_findV_some hskel hf1i
    have hvieq : vi'' = vi' := by rw [hvi''] at hvi'; exact Option.some.inj hvi'
    subst hvieq
    have hrootv : v.isRoot = false := by rw [← hs.1] at hroot'; exact hroot'
    obtain ⟨pv1, hpv1⟩ := ucd_parent_present hf1i hrootv rfl hrun
    obtain ⟨pv', hpv', hsp⟩ := skelEq_findV_some hskel hpv1
    have hpar' : vi''.parent = some p := by rw [← hs.2.1]
    have hedge' : vi''.edgeCost = e := by rw [← hs.2.2.2.1]
    obtain ⟨hc, hd⟩ := costOk_extract (costOk_all_of_inv hinvf' i) hvi' hroot' hpar' hpv'
    exact ⟨pv', hpv', by rw [← hedge']; exact hc, hd⟩
  · -- removeParent
    intro f f' i v R hfi hop hinv hcoh
    have hrun := removeParent_run hfi hop
    exact ucd_preserves_inv hrun hcoh
      (fun j hj => (costOk_stage ch (u := { v with parent := none }) hfi rfl rfl j hj).trans
        (costOk_all_of_inv hinv j))
  · -- addChild
    intro f f' i c v R hfi hop hinv hcoh
    have hrun := addChild_run hfi hop
    exact ucd_preserves_inv hrun hcoh
      (fun j _ => (costOk_congr ch (u := { v with children := v.children ++ [c] })
        hfi rfl rfl rfl rfl rfl j).trans (costOk_all_of_inv hinv j))
  · -- removeChild
    intro f f' i c v l R hfi hscan hop hinv hcoh
    rcases hscan with ⟨hscan, rfl⟩ | ⟨k, hscan, rfl⟩
    · have hrun : updateCostAndDepth ch debug fuel
          (setV f i { v with children := v.children }) c true = (f', none) :=
        removeChild_run hfi hscan hop
      exact ucd_preserves_inv hrun hcoh
        (fun j _ => (costOk_congr ch (u := { v with children := v.children })
          hfi rfl rfl rfl rfl rfl j).trans (costOk_all_of_inv hinv j))
    · have hrun : updateCostAndDepth ch debug fuel
          (setV f i { v with children := Op.swapPop v.children k }) c true = (f', none) :=
        removeChild_run hfi hscan hop
      exact ucd_preserves_inv hrun hcoh
        (fun j _ => (costOk_congr ch (u := { v with children := Op.swapPop v.children k })
          hfi rfl rfl rfl rfl rfl j).trans (costOk_all_of_inv hinv j))
  · -- updateCostAndDepth
    intro f f' i R hrun hinv hcoh
    exact ucd_preserves_inv hrun hcoh (fun j _ => costOk_all_of_inv hinv j)

theorem sameSkelV_symm {C : Type} {x y : Vertex C} (h : sameSkelV x y) : sameSkelV y x :=
  ⟨h.1.symm, h.2.1.symm, h.2.2.1.symm, h.2.2.2.1.symm, h.2.2.2.2.symm⟩

theorem skelEq_symm {C : Type} {f g : Forest C} (h : skelEq f g) : skelEq g f := by
  refine ⟨?_, fun j => ?_⟩
  · exact h.1.symm
  · have := h.2 j
    cases hf : findV f j <;> cases hg : findV g j <;> rw [hf, hg] at this <;>
      simp_all [sameSkel]
    exact sameSkelV_symm this

theorem childOfRB_of_skel_fwd {C : Type} {f g : Forest C} {R : List Nat} {j : Nat}
    (h : skelEq f g) (hc : childOfRB f R j = true) : childOfRB g R j = true :=
  childOfRB_of_skel_rev (skelEq_symm h) hc

theorem childRel_iff_of_skel {C : Type} {f g : Forest C} (h : skelEq f g) (a b : Nat) :
    childRel g a b ↔ childRel f a b := by
  constructor
  · rintro ⟨av', hga, hb⟩
    obtain ⟨av, hfa, hs⟩ := skelEq_findV_some_rev h hga
    refine ⟨av, hfa, ?_⟩
    rw [hs.2.2.1]
    exact hb
  · rintro ⟨av, hfa, hb⟩
    obtain ⟨av', hga, hs⟩ := skelEq_findV_some h hfa
    refine ⟨av', hga, ?_⟩
    rw [← hs.2.2.1]
    exact hb

theorem desc_of_skel {C : Type} {f g : Forest C} (h : skelEq f g) {a b : Nat}
    (hd : Desc f a b) : Desc g a b :=
  Relation.ReflTransGen.mono (fun x y hxy => (childRel_iff_of_skel h x y).mpr hxy) hd

theorem childCoherent_extract {C : Type} {f : Forest C} {R : List Nat} {w c : Nat}
    {wv : Vertex C} (hc : childCoherentOnB f R = true) (hwR : w ∈ R)
    (hfw : findV f w = some wv) (hcmem : c ∈ wv.children) :
    c ∈ R ∧ ∃ cv, findV f c = some cv ∧ cv.parent = some w ∧ cv.isRoot = false := by
  simp only [childCoherentOnB, List.all_eq_true] at hc
  have h := hc w hwR
  rw [hfw] at h
  simp only [List.all_eq_true] at h
  have h2 := h c hcmem
  rcases (Bool.and_eq_true _ _).mp h2 with ⟨h3, h4⟩
  refine ⟨memB_iff.mp h3, ?_⟩
  cases hfc : findV f c with
  | none => rw [hfc] at h4; cases h4
  | some cv =>
    rw [hfc] at h4
    rcases (Bool.and_eq_true _ _).mp h4 with ⟨h5, h6⟩
    exact ⟨cv, rfl, of_decide_eq_true h5, by simpa using h6⟩

theorem inf_persist {C : Type} {ch : CostHelper C} {g g' : Forest C} {j : Nat}
    {jv : Vertex C} (hj : findV g j = some jv) (hc : jv.cost = ch.infiniteCost)
    (hw : ∀ k, findV g' k ≠ findV g k →
      ∃ kv, findV g' k = some kv ∧ kv.cost = ch.infiniteCost) :
    ∃ kv, findV g' j = some kv ∧ kv.cost = ch.infiniteCost := by
  by_cases h : findV g' j = findV g j
  · exact ⟨jv, h.trans hj, hc⟩
  · exact hw j h

/-- A successful cascade whose target is about to receive the infinite
cost (and whose descendants are coherently linked inside `R`) changes
records only to infinite-cost ones, and drives the whole child-reachable
set of the target to the infinite cost.  Needs `combineCosts` to absorb
the infinite cost on the left. -/
theorem run_inf {C : Type} [DecidableEq C] (ch : CostHelper C) (debug : Bool)
    (habs : ∀ x, ch.combineCosts ch.infiniteCost x = ch.infiniteCost) :
    ∀ (fuel : Nat) (f : Forest C) (t : Task) (R : List Nat) (f' : Forest C),
      childCoherentOnB f R = true →
      (match t with
       | Task.upd i cascade => cascade = true ∧ i ∈ R ∧ infPre ch f i
       | Task.kids cs => ∀ c ∈ cs, c ∈ R ∧ infPre ch f c ∧ childOfRB f R c = true) →
      run ch debug fuel f t = (f', none) →
      (∀ j, findV f' j ≠ findV f j →
          (∃ jv, findV f' j = some jv ∧ jv.cost = ch.infiniteCost) ∧
            (match t with
             | Task.upd i _ => j = i ∨ childOfRB f R j = true
             | Task.kids _ => childOfRB f R j = true)) ∧
      (match t with
       | Task.upd i _ => ∀ j, Desc f i j →
           ∃ jv, findV f' j = some jv ∧ jv.cost = ch.infiniteCost
       | Task.kids cs => ∀ c ∈ cs, ∀ j, Desc f c j →
           ∃ jv, findV f' j = some jv ∧ jv.cost = ch.infiniteCost) := by
  intro fuel
  induction fuel with
  | zero =>
    intro f t R f' _ _ hrun
    exact absurd hrun (by simp [run])
  | succ fuel ih =>
    intro f t R f' hcoh htask hrun
    cases t with
    | upd i cascade =>
      obtain ⟨rfl, hiR, hinf⟩ := htask
      simp only [run] at hrun
      obtain ⟨vi, hvi, hviroot, hvidisj⟩ := hinf
      rw [hvi] at hrun
      dsimp only at hrun
      split at hrun
      · exact absurd hrun (fun h => pairErrFalse h)
      · split at hrun
        · -- root branch: contradicts infPre
          simp_all
        · -- common continuation for the two infinite-write branches
          have hmain : ∀ (u : Vertex C),
              u.isRoot = vi.isRoot → u.parent = vi.parent → u.children = vi.children →
              u.edgeCost = vi.edgeCost → u.isPruned = vi.isPruned →
              u.cost = ch.infiniteCost →
              run ch debug fuel (setV f i u) (Task.kids vi.children) = (f', none) →
              (∀ j, findV f' j ≠ findV f j →
                  (∃ jv, findV f' j = some jv ∧ jv.cost = ch.infiniteCost) ∧
                    (j = i ∨ childOfRB f R j = true)) ∧
                (∀ j, Desc f i j →
                  ∃ jv, findV f' j = some jv ∧ jv.cost = ch.infiniteCost) := by
            intro u hNroot hNpar hNch hNedge hNpr hNcost hrunK
            have hskel : skelEq f (setV f i u) :=
              skelEq_setV hvi _ ⟨hNroot.symm, hNpar.symm, hNch.symm, hNedge.symm, hNpr.symm⟩
            have hf2i : findV (setV f i u) i = some u := findV_setV_self _ hvi
            have hkidsH : ∀ c ∈ vi.children,
                c ∈ R ∧ infPre ch (setV f i u) c ∧ childOfRB (setV f i u) R c = true := by
              intro c hcmem
              obtain ⟨hcR, cv, hfcv, hcvpar, hcvroot⟩ :=
                childCoherent_extract hcoh hiR hvi hcmem
              refine ⟨hcR, ?_, ?_⟩
              · by_cases hci : c = i
                · subst hci
                  refine ⟨u, hf2i, hNroot.trans hviroot, Or.inr ⟨c, u, ?_, hf2i, hNcost⟩⟩
                  rw [hNpar]
                  have : cv = vi := by rw [hfcv] at hvi; exact Option.some.inj hvi
                  rw [← this]
                  exact hcvpar
                · refine ⟨cv, by rw [findV_setV_ne f u hci]; exact hfcv, hcvroot,
                    Or.inr ⟨i, u, hcvpar, hf2i, hNcost⟩⟩
              · simp only [childOfRB, List.any_eq_true]
                refine ⟨i, hiR, ?_⟩
                rw [hf2i]
                simp only [hNch]
                exact memB_iff.mpr hcmem
            obtain ⟨hw1, hw2⟩ := ih (setV f i u) (Task.kids vi.children) R f'
              (childCoherentOnB_of_skel hskel hcoh) hkidsH hrunK
            constructor
            · intro j hj
              by_cases h2 : findV f' j = findV (setV f i u) j
              · have hji : j = i := by
                  by_contra hne
                  rw [findV_setV_ne f u hne] at h2
                  exact hj h2
                subst hji
                rw [hf2i] at h2
                exact ⟨⟨u, h2, hNcost⟩, Or.inl rfl⟩
              · obtain ⟨hinfj, hcof⟩ := hw1 j h2
                exact ⟨hinfj, Or.inr (childOfRB_of_skel_rev hskel hcof)⟩
            · intro j hdesc
              rcases Relation.ReflTransGen.cases_head hdesc with heq | ⟨c, hrel, hrest⟩
              · subst heq
                exact inf_persist hf2i hNcost (fun k hk => (hw1 k hk).1)
              · obtain ⟨av, hfa, hcmem⟩ := hrel
                have hav : av = vi := by rw [hfa] at hvi; exact Option.some.inj hvi
                subst hav
                exact hw2 c hcmem j (desc_of_skel hskel hrest)
          split at hrun
          · -- disconnected branch
            split at hrun
            · exact absurd hrun (fun h => pairErrFalse h)
            · split at hrun
              · exact hmain { vi with cost := ch.infiniteCost, depth := 0 }
                  rfl rfl rfl rfl rfl rfl hrun
              · simp_all
          · -- parented branch
            rename_i p hp
            split at hrun
            · exact absurd hrun (fun h => pairErrFalse h)
            · rename_i pv hpv
              split at hrun
              · exact absurd hrun (fun h => pairErrFalse h)
              · split at hrun
                · exact absurd hrun (fun h => pairErrFalse h)
                · rw [setV_setV] at hrun
                  split at hrun
                  · have hpvcost : pv.cost = ch.infiniteCost := by
                      rcases hvidisj with hnone | ⟨p0, pv0, hp0, hpv0, hc0⟩
                      · rw [hnone] at hp; cases hp
                      · rw [hp0] at hp
                        have : p0 = p := Option.some.inj hp
                        subst this
                        rw [hpv0] at hpv
                        rw [← Option.some.inj hpv]
                        exact hc0
                    exact hmain
                      { vi with cost := ch.combineCosts pv.cost vi.edgeCost,
                                depth := (pv.depth + 1) % UINT32 }
                      rfl rfl rfl rfl rfl (by rw [hpvcost]; exact habs _) hrun
                  · simp_all
    | kids cs =>
      cases cs with
      | nil =>
        have hff : f = f' := congrArg Prod.fst hrun
        subst hff
        exact ⟨fun j hj => absurd rfl hj, fun c hc => absurd hc (List.not_mem_nil c)⟩
      | cons c rest =>
        simp only [run] at hrun
        cases hfc : findV f c with
        | none => rw [hfc] at hrun; exact absurd hrun (by simp)
        | some cv0 =>
          rw [hfc] at hrun
          dsimp only at hrun
          cases hr1 : run ch debug fuel f (Task.upd c true) with
          | mk f1 e1 =>
            rw [hr1] at hrun
            cases e1 with
            | some err => exact absurd hrun (fun h => pairErrFalse h)
            | none =>
              obtain ⟨hcR, hinfc, hcofc⟩ := htask c (List.mem_cons_self c rest)
              have hskel : skelEq f f1 := by
                have := run_skel ch debug fuel f (Task.upd c true)
                rw [hr1] at this
                exact this
              obtain ⟨hw11, hw21⟩ := ih f (Task.upd c true) R f1 hcoh ⟨rfl, hcR, hinfc⟩ hr1
              have hrestH : ∀ x ∈ rest, x ∈ R ∧ infPre ch f1 x ∧ childOfRB f1 R x = true := by
                intro x hx
                obtain ⟨hxR, hinfx, hcofx⟩ := htask x (List.mem_cons_of_mem c hx)
                refine ⟨hxR, ?_, childOfRB_of_skel_fwd hskel hcofx⟩
                obtain ⟨xv, hfx, hxroot, hxdisj⟩ := hinfx
                obtain ⟨xv1, hfx1, hsx⟩ := skelEq_findV_some hskel hfx
                refine ⟨xv1, hfx1, hsx.1 ▸ hxroot, ?_⟩
                rcases hxdisj with hnone | ⟨p, pv, hxp, hfp, hpc⟩
                · exact Or.inl (hsx.2.1 ▸ hnone)
                · refine Or.inr ⟨p, ?_⟩
                  obtain ⟨pv1, hfp1, hpc1⟩ := inf_persist hfp hpc (fun k hk => (hw11 k hk).1)
                  exact ⟨pv1, hsx.2.1 ▸ hxp, hfp1, hpc1⟩
              obtain ⟨hw12, hw22⟩ := ih f1 (Task.kids rest) R f'
                (childCoherentOnB_of_skel hskel hcoh) hrestH hrun
              constructor
              · intro j hj
                by_cases h2 : findV f' j = findV f1 j
                · have hne1 : findV f1 j ≠ findV f j := fun he => hj (h2.trans he)
                  obtain ⟨hinfj, hco⟩ := hw11 j hne1
                  refine ⟨⟨hinfj.choose, h2.trans hinfj.choose_spec.1, hinfj.choose_spec.2⟩, ?_⟩
                  rcases hco with rfl | hco
                  · exact hcofc
                  · exact hco
                · obtain ⟨hinfj, hco⟩ := hw12 j h2
                  exact ⟨hinfj, childOfRB_of_skel_rev hskel hco⟩
              · intro c0 hc0 j hdesc
                rcases List.mem_cons.mp hc0 with rfl | hc0r
                · obtain ⟨jv1, hj1, hc1⟩ := hw21 j hdesc
                  exact inf_persist hj1 hc1 (fun k hk => (hw12 k hk).1)
                · exact hw22 c0 hc0r j (desc_of_skel hskel hdesc)

theorem childRel_setV_children {C : Type} {f : Forest C} {i : Nat} {v u : Vertex C}
    (hfi : findV f i = some v) (hch : u.children = v.children) (a b : Nat) :
    childRel (setV f i u) a b ↔ childRel f a b := by
  constructor
  · rintro ⟨av, ha, hb⟩
    by_cases hai : a = i
    · subst hai
      rw [findV_setV_self u hfi] at ha
      have hav : u = av := Option.some.inj ha
      subst hav
      rw [hch] at hb
      exact ⟨v, hfi, hb⟩
    · rw [findV_setV_ne f u hai] at ha
      exact ⟨av, ha, hb⟩
  · rintro ⟨av, ha, hb⟩
    by_cases hai : a = i
    · subst hai
      have hav : v = av := by rw [hfi] at ha; exact Option.some.inj ha
      subst hav
      refine ⟨u, findV_setV_self u hfi, ?_⟩
      rw [hch]
      exact hb
    · exact ⟨av, by rw [findV_setV_ne f u hai]; exact ha, hb⟩

theorem desc_setV_children {C : Type} {f : Forest C} {i : Nat} {v u : Vertex C}
    (hfi : findV f i = some v) (hch : u.children = v.children) {a b : Nat}
    (hd : Desc f a b) : Desc (setV f i u) a b :=
  Relation.ReflTransGen.mono
    (fun x y hxy => (childRel_setV_children hfi hch x y).mpr hxy) hd

/-- C3.  `removeParent` on a non-root vertex with a parent clears the
parent pointer and sets the cost to the infinite cost and the depth
to 0; without cascading this is the entire effect, and with
`cascade = true` every descendant reachable through child lists is also
driven to the infinite cost (given child-list/parent-pointer coherence
around the subtree and an infinite cost absorbing on the left, as the
CostHelper contract requires). -/
theorem removeParent_infinite_cascade {C : Type} [DecidableEq C] (ch : CostHelper C)
    (debug : Bool) (fuel : Nat)
    (habs : ∀ x, ch.combineCosts ch.infiniteCost x = ch.infiniteCost) :
    (∀ (f f' : Forest C) (i : Nat) (v : Vertex C),
      findV f i = some v → v.isRoot = false → v.parent.isSome →
      Op.removeParent ch debug fuel f i false = (f', none) →
      f' = setV f i { v with parent := none, cost := ch.infiniteCost, depth := 0 }) ∧
    (∀ (f f' : Forest C) (i : Nat) (v : Vertex C) (R : List Nat),
      findV f i = some v → v.isRoot = false → v.parent.isSome →
      Op.removeParent ch debug fuel f i true = (f', none) →
      childCoherentOnB (setV f i { v with parent := none }) R = true →
      i ∈ R →
      findV f' i = some { v with parent := none, cost := ch.infiniteCost, depth := 0 } ∧
        (∀ j, Desc f i j → ∃ jv, findV f' j = some jv ∧ jv.cost = ch.infiniteCost)) := by
  constructor
  · -- cascade = false: the whole effect is the single write
    intro f f' i v hfi hroot hpar hop
    have hrun := removeParent_run hfi hop
    cases fuel with
    | zero => exact absurd hrun (by simp [updateCostAndDepth, run])
    | succ fuel =>
      have hf1i : findV (setV f i { v with parent := none }) i
          = some { v with parent := none } := findV_setV_self _ hfi
      simp only [updateCostAndDepth, run, hf1i] at hrun
      simp only [setV_setV] at hrun
      split at hrun
      · exact absurd hrun (fun hh => pairErrFalse hh)
      · split at hrun
        · simp_all
        · simp only [Bool.and_false, Bool.false_eq_true, if_false] at hrun
          exact (congrArg Prod.fst hrun).symm
  · -- cascade = true
    intro f f' i v R hfi hroot hpar hop hcoh hiR
    have hrun := removeParent_run hfi hop
    cases fuel with
    | zero => exact absurd hrun (by simp [updateCostAndDepth, run])
    | succ fuel =>
      have hf1i : findV (setV f i { v with parent := none }) i
          = some { v with parent := none } := findV_setV_self _ hfi
      simp only [updateCostAndDepth, run, hf1i] at hrun
      simp only [setV_setV] at hrun
      split at hrun
      · exact absurd hrun (fun hh => pairErrFalse hh)
      · split at hrun
        · simp_all
        · split at hrun
          · exact absurd hrun (fun hh => pairErrFalse hh)
          · simp only [eq_self_iff_true, if_true] at hrun
            -- hrun : run ... (setV f i vInf) (kids v.children) = (f', none)
            have hskel1 : skelEq (setV f i { v with parent := none })
                (setV f i { v with parent := none, cost := ch.infiniteCost, depth := 0 }) := by
              have h := skelEq_setV hf1i
                { v with parent := none, cost := ch.infiniteCost, depth := 0 }
                ⟨rfl, rfl, rfl, rfl, rfl⟩
              rw [setV_setV] at h
              exact h
            have hcoh2 : childCoherentOnB
                (setV f i { v with parent := none, cost := ch.infiniteCost, depth := 0 }) R
                = true := childCoherentOnB_of_skel hskel1 hcoh
            have hf2i : findV
                (setV f i { v with parent := none, cost := ch.infiniteCost, depth := 0 }) i
                = some { v with parent := none, cost := ch.infiniteCost, depth := 0 } :=
              findV_setV_self _ hfi
            have hkids : ∀ c ∈ v.children,
                c ∈ R ∧ infPre ch
                  (setV f i { v with parent := none, cost := ch.infiniteCost, depth := 0 }) c ∧
                childOfRB
                  (setV f i { v with parent := none, cost := ch.infiniteCost, depth := 0 }) R c
                  = true := by
              intro c hcmem
              obtain ⟨hcR, cv, hfcv, hcvpar, hcvroot⟩ :=
                childCoherent_extract hcoh2 hiR hf2i hcmem
              refine ⟨hcR, ⟨cv, hfcv, hcvroot, Or.inr ⟨i,
                { v with parent := none, cost := ch.infiniteCost, depth := 0 },
                hcvpar, hf2i, rfl⟩⟩, ?_⟩
              simp only [childOfRB, List.any_eq_true]
              exact ⟨i, hiR, by rw [hf2i]; exact memB_iff.mpr hcmem⟩
            obtain ⟨hw1, hw2⟩ := run_inf ch debug habs fuel
              (setV f i { v with parent := none, cost := ch.infiniteCost, depth := 0 })
              (Task.kids v.children) R f' hcoh2 hkids hrun
            have hnoti : childOfRB
                (setV f i { v with parent := none, cost := ch.infiniteCost, depth := 0 }) R i
                = true → False := by
              intro hco
              simp only [childOfRB, List.any_eq_true] at hco
              obtain ⟨w, hwR, hmatch⟩ := hco
              cases hfw : findV
                  (setV f i { v with parent := none, cost := ch.infiniteCost, depth := 0 }) w with
              | none => rw [hfw] at hmatch; cases hmatch
              | some wv =>
                rw [hfw] at hmatch
                obtain ⟨-, cv, hfcv, hcvpar, -⟩ :=
                  childCoherent_extract hcoh2 hwR hfw (memB_iff.mp hmatch)
                rw [hf2i] at hfcv
                have : { v with parent := none, cost := ch.infiniteCost, depth := 0 } = cv :=
                  Option.some.inj hfcv
                rw [← this] at hcvpar
                cases hcvpar
            have hfin : findV f' i
                = some { v with parent := none, cost := ch.infiniteCost, depth := 0 } := by
              by_cases hch : findV f' i = findV
                  (setV f i { v with parent := none, cost := ch.infiniteCost, depth := 0 }) i
              · rw [hch, hf2i]
              · obtain ⟨-, hco⟩ := hw1 i hch
                exact absurd hco hnoti
            refine ⟨hfin, ?_⟩
            intro j hdesc
            have hdesc2 : Desc
                (setV f i { v with parent := none, cost := ch.infiniteCost, depth := 0 }) i j :=
              desc_setV_children
                (u := { v with parent := none, cost := ch.infiniteCost, depth := 0 })
                hfi rfl hdesc
            rcases Relation.ReflTransGen.cases_head hdesc2 with heq | ⟨c, hrel, hrest⟩
            · subst heq
              exact ⟨_, hfin, rfl⟩
            · obtain ⟨av, hfa, hcmem⟩ := hrel
              rw [hf2i] at hfa
              have hav : { v with parent := none, cost := ch.infiniteCost, depth := 0 } = av :=
                Option.some.inj hfa
              subst hav
              exact hw2 c hcmem j hrest

/-! The removeChild scan and the swap-and-pop removal. -/

theorem findChildIdx_cons {C : Type} {debug : Bool} {f : Forest C} {c cc : Nat}
    {ccv cv : Vertex C} (hcc : findV f cc = some ccv) (hc : findV f c = some cv)
    (hccp : debug = true → ccv.isPruned = false) (hcp : debug = true → cv.isPruned = false)
    (rest : List Nat) (k0 : Nat) :
    Op.findChildIdx debug f c (cc :: rest) k0 =
      if cc = c then Except.ok (some k0) else Op.findChildIdx debug f c rest (k0 + 1) := by
  simp only [Op.findChildIdx, hcc, hc]
  cases debug with
  | false => simp
  | true => simp [hccp rfl, hcp rfl]

theorem findChildIdx_notFound {C : Type} {debug : Bool} {f : Forest C} {c : Nat}
    {cv : Vertex C} (hc : findV f c = some cv) (hcp : debug = true → cv.isPruned = false) :
    ∀ (l : List Nat) (k0 : Nat),
      (∀ x ∈ l, ∃ xv, findV f x = some xv ∧ (debug = true → xv.isPruned = false)) →
      ¬ c ∈ l →
      Op.findChildIdx debug f c l k0 = Except.ok none := by
  intro l
  induction l with
  | nil => intro k0 _ _; rfl
  | cons x xs ih =>
    intro k0 hsafe hnc
    obtain ⟨xv, hxv, hxp⟩ := hsafe x (List.mem_cons_self x xs)
    by_cases hxc : x = c
    · have hmem : c ∈ x :: xs := by rw [← hxc]; exact List.mem_cons_self x xs
      exact absurd hmem hnc
    · rw [findChildIdx_cons hxv hc hxp hcp, if_neg hxc]
      exact ih (k0 + 1) (fun y hy => hsafe y (List.mem_cons_of_mem x hy))
        (fun hcm => hnc (List.mem_cons_of_mem x hcm))

theorem swapPop_cons (x : Nat) (t : List Nat) (j : Nat) (ht : t ≠ []) :
    Op.swapPop (x :: t) (j + 1) = x :: Op.swapPop t j := by
  obtain ⟨y, t', rfl⟩ := List.exists_cons_of_ne_nil ht
  simp only [Op.swapPop, List.length_cons]
  by_cases hj : j + 1 = t'.length + 1
  · rw [if_pos (by omega), if_pos hj]
    rfl
  · rw [if_neg (by omega), if_neg hj]
    have hlast : (y :: t').getLast? = some ((y :: t').getLast (by simp)) :=
      List.getLast?_eq_getLast _ (by simp)
    have hlast2 : (x :: y :: t').getLast? = some ((y :: t').getLast (by simp)) := by
      rw [List.getLast?_cons_cons]
      exact hlast
    rw [hlast, hlast2]
    simp only
    have hset : (x :: y :: t').set (j + 1) ((y :: t').getLast (by simp))
        = x :: (y :: t').set j ((y :: t').getLast (by simp)) := rfl
    rw [hset]
    have hsh : ∃ z w, (y :: t').set j ((y :: t').getLast (by simp)) = z :: w := by
      cases j with
      | zero => exact ⟨_, _, rfl⟩
      | succ j' => exact ⟨y, _, rfl⟩
    obtain ⟨z, w, hzw⟩ := hsh
    rw [hzw, List.dropLast_cons₂]

theorem scan_swap_restore {C : Type} {debug : Bool} {f : Forest C} {c : Nat}
    {cv : Vertex C} (hc : findV f c = some cv) (hcp : debug = true → cv.isPruned = false) :
    ∀ (l : List Nat) (k0 : Nat),
      (∀ x ∈ l, ∃ xv, findV f x = some xv ∧ (debug = true → xv.isPruned = false)) →
      ∃ j, Op.findChildIdx debug f c (l ++ [c]) k0 = Except.ok (some (k0 + j)) ∧
        Op.swapPop (l ++ [c]) j = l := by
  intro l
  induction l with
  | nil =>
    intro k0 _
    refine ⟨0, ?_, ?_⟩
    · rw [List.nil_append, findChildIdx_cons hc hc hcp hcp, if_pos rfl, Nat.add_zero]
    · simp [Op.swapPop]
  | cons x xs ih =>
    intro k0 hsafe
    obtain ⟨xv, hxv, hxp⟩ := hsafe x (List.mem_cons_self x xs)
    by_cases hxc : x = c
    · refine ⟨0, ?_, ?_⟩
      · rw [List.cons_append, findChildIdx_cons hxv hc hxp hcp, if_pos hxc, Nat.add_zero]
      · subst hxc
        simp only [Op.swapPop]
        rw [if_neg (by simp [List.length_append])]
        rw [List.getLast?_concat]
        simp only
        rw [List.cons_append, List.set_cons_zero, ← List.cons_append, List.dropLast_concat]
    · obtain ⟨j, hscan, hswap⟩ :=
        ih (k0 + 1) (fun y hy => hsafe y (List.mem_cons_of_mem x hy))
      refine ⟨j + 1, ?_, ?_⟩
      · rw [List.cons_append, findChildIdx_cons hxv hc hxp hcp, if_neg hxc, hscan]
        rw [Nat.add_assoc, Nat.add_comm 1 j]
      · rw [List.cons_append, swapPop_cons x (xs ++ [c]) j (by simp), hswap]

theorem addChild_skel {C : Type} {ch : CostHelper C} {debug : Bool} {fuel : Nat}
    {f fA : Forest C} {i c : Nat} {v : Vertex C}
    (hfi : findV f i = some v)
    (h : Op.addChild ch debug fuel f i c true = (fA, none)) :
    skelEq (setV f i { v with children := v.children ++ [c] }) fA := by
  have h2 : run ch debug fuel (setV f i { v with children := v.children ++ [c] })
      (Task.upd c true) = (fA, none) := addChild_run hfi h
  have h3 := run_skel ch debug fuel (setV f i { v with children := v.children ++ [c] })
    (Task.upd c true)
  rw [h2] at h3
  exact h3

/-- C6.  `addChild` of a target `c` followed by `removeChild` of the same
target restores the parent's child list exactly: the list (hence its
length and the multiset of child ids) is the one from before the
`addChild`.  The scan needs the visited children and the target to be
live (present and, in a debug build, unpruned). -/
theorem addChild_removeChild_restores {C : Type} [DecidableEq C] (ch : CostHelper C)
    (debug : Bool) (fuel1 fuel2 : Nat) :
    ∀ (f fA f' : Forest C) (i c : Nat) (v cv : Vertex C),
      findV f i = some v →
      findV f c = some cv →
      (debug = true → cv.isPruned = false) →
      (∀ x ∈ v.children, ∃ xv, findV f x = some xv ∧ (debug = true → xv.isPruned = false)) →
      Op.addChild ch debug fuel1 f i c true = (fA, none) →
      Op.removeChild ch debug fuel2 fA i c true = (f', none) →
      ∃ v', findV f' i = some v' ∧ v'.children = v.children ∧
        v'.children.length = v.children.length ∧
        Multiset.ofList v'.children = Multiset.ofList v.children := by
  intro f fA f' i c v cv hfi hfc hcvp hsafe hadd hrem
  have hskelA : skelEq (setV f i { v with children := v.children ++ [c] }) fA :=
    addChild_skel hfi hadd
  have hf1i : findV (setV f i { v with children := v.children ++ [c] }) i
      = some { v with children := v.children ++ [c] } := findV_setV_self _ hfi
  obtain ⟨vA, hfAi, hsA⟩ := skelEq_findV_some hskelA hf1i
  have htrans : ∀ (x : Nat) (xv : Vertex C), findV f x = some xv →
      (debug = true → xv.isPruned = false) →
      ∃ xvA, findV fA x = some xvA ∧ (debug = true → xvA.isPruned = false) := by
    intro x xv hx hxp
    by_cases hxi : x = i
    · subst hxi
      have hxv : xv = v := by rw [hfi] at hx; exact (Option.some.inj hx).symm
      refine ⟨vA, hfAi, fun hd => ?_⟩
      rw [← hsA.2.2.2.2]
      rw [hxv] at hxp
      exact hxp hd
    · have hx1 : findV (setV f i { v with children := v.children ++ [c] }) x = some xv := by
        rw [findV_setV_ne f _ hxi]
        exact hx
      obtain ⟨xvA, hxA, hsx⟩ := skelEq_findV_some hskelA hx1
      refine ⟨xvA, hxA, fun hd => ?_⟩
      rw [← hsx.2.2.2.2]
      exact hxp hd
  obtain ⟨cvA, hfcA, hcvAp⟩ := htrans c cv hfc hcvp
  have hsafeA : ∀ x ∈ v.children,
      ∃ xv, findV fA x = some xv ∧ (debug = true → xv.isPruned = false) := by
    intro x hx
    obtain ⟨xv, hxv, hxp⟩ := hsafe x hx
    exact htrans x xv hxv hxp
  obtain ⟨j, hscanA, hswapA⟩ := scan_swap_restore hfcA hcvAp v.children 0 hsafeA
  rw [Nat.zero_add] at hscanA
  have hchA : vA.children = v.children ++ [c] := hsA.2.2.1.symm
  have hscanA2 : Op.findChildIdx debug fA c vA.children 0 = Except.ok (some j) := by
    rw [hchA]
    exact hscanA
  have hrun : updateCostAndDepth ch debug fuel2
      (setV fA i { vA with children := Op.swapPop vA.children j }) c true = (f', none) :=
    removeChild_run hfAi hscanA2 hrem
  have hswapA2 : Op.swapPop vA.children j = v.children := by
    rw [hchA]
    exact hswapA
  have hstagei : findV (setV fA i { vA with children := Op.swapPop vA.children j }) i
      = some { vA with children := Op.swapPop vA.children j } := findV_setV_self _ hfAi
  have hskelF : skelEq (setV fA i { vA with children := Op.swapPop vA.children j }) f' := by
    have h2 : run ch debug fuel2 (setV fA i { vA with children := Op.swapPop vA.children j })
        (Task.upd c true) = (f', none) := hrun
    have h3 := run_skel ch debug fuel2
      (setV fA i { vA with children := Op.swapPop vA.children j }) (Task.upd c true)
    rw [h2] at h3
    exact h3
  obtain ⟨v', hv', hsv⟩ := skelEq_findV_some hskelF hstagei
  refine ⟨v', hv', ?_, ?_, ?_⟩
  · rw [← hsv.2.2.1, hswapA2]
  · rw [← hsv.2.2.1, hswapA2]
  · rw [← hsv.2.2.1, hswapA2]

/-- C8.  When the target id does not occur in the child list,
`removeChild` (with cascade, in a debug build) still runs the target's
`updateCostAndDepth(true)` — the final forest is exactly the
post-cascade one — and only then raises the not-found programming error;
the failed removal is not atomic with respect to the target.  In the
simple case of a disconnected, childless, non-root target, the visible
mutation is the write of the infinite cost and depth 0. -/
theorem removeChild_notFound_not_atomic {C : Type} [DecidableEq C] (ch : CostHelper C)
    (fuel : Nat) :
    ∀ (f g : Forest C) (i c : Nat) (v cv : Vertex C),
      findV f i = some v →
      findV f c = some cv →
      v.isPruned = false →
      cv.isPruned = false →
      (∀ x ∈ v.children, ∃ xv, findV f x = some xv ∧ xv.isPruned = false) →
      ¬ c ∈ v.children →
      updateCostAndDepth ch true fuel (setV f i v) c true = (g, none) →
      Op.removeChild ch true fuel f i c true = (g, some VErr.childNotFound) ∧
        (cv.parent = none → cv.isRoot = false → cv.children = [] →
          findV g c = some { cv with cost := ch.infiniteCost, depth := 0 }) := by
  intro f g i c v cv hfi hfc hvp hcvp hsafe hnc hucd
  have hfcs : findV (setV f i v) c = some cv := by
    by_cases hci : c = i
    · subst hci
      rw [findV_setV_self v hfi]
      rw [hfi] at hfc
      rw [Option.some.inj hfc]
    · rw [findV_setV_ne f v hci]
      exact hfc
  have hucd2 : updateCostAndDepth ch true fuel
      (setV f i { v with children := v.children }) c true = (g, none) := hucd
  constructor
  · simp only [Op.removeChild, hfi]
    rw [show Op.assertNotPruned true v = none from by simp [Op.assertNotPruned, hvp]]
    simp only
    rw [findChildIdx_notFound hfc (fun _ => hcvp) v.children 0
      (fun x hx => by
        obtain ⟨xv, h1, h2⟩ := hsafe x hx
        exact ⟨xv, h1, fun _ => h2⟩) hnc]
    simp only [eq_self_iff_true, if_true]
    rw [hucd2]
    simp
  · intro hp hr hch
    cases fuel with
    | zero => exact absurd hucd (by simp [updateCostAndDepth, run])
    | succ n =>
      simp only [updateCostAndDepth, run, hfcs] at hucd
      rw [hp] at hucd
      simp only [hcvp, hr, hch, Bool.and_false, Bool.false_eq_true, if_false,
        List.isEmpty_nil, Bool.not_true, Bool.and_true, eq_self_iff_true, if_true] at hucd
      cases n with
      | zero => exact absurd hucd (by simp [run])
      | succ m =>
        simp only [run] at hucd
        rw [Prod.mk.injEq] at hucd
        rw [← hucd.1, findV_setV_self _ hfcs]
        simp [hr, hp, hch, hcvp]

/-- C2.  After `markPruned` (so `isPruned_` is set), in a debug build —
where `ASSERT_NOT_PRUNED` expands to `assertNotPruned` — every public
operation of the vertex other than `isPruned` and `markUnpruned` raises
the pruned-vertex programming error (and mutators leave the forest
unchanged), while `isPruned` still reports `true` and `markUnpruned`
still succeeds and clears the flag. -/
theorem pruned_vertex_is_inert {C : Type} (ch : CostHelper C) (fuel : Nat) :
    ∀ (f : Forest C) (i : Nat) (v : Vertex C),
      findV f i = some v → v.isPruned = true →
      Op.getId true f i = Except.error VErr.prunedAccess ∧
      Op.isRoot true f i = Except.error VErr.prunedAccess ∧
      Op.hasParent true f i = Except.error VErr.prunedAccess ∧
      Op.isInTree true f i = Except.error VErr.prunedAccess ∧
      Op.getDepth true f i = Except.error VErr.prunedAccess ∧
      Op.getParent true f i = Except.error VErr.prunedAccess ∧
      (∀ p e cascade, Op.addParent ch true fuel f i p e cascade
        = (f, some VErr.prunedAccess)) ∧
      (∀ cascade, Op.removeParent ch true fuel f i cascade = (f, some VErr.prunedAccess)) ∧
      Op.hasChildren true f i = Except.error VErr.prunedAccess ∧
      Op.getChildren true f i = Except.error VErr.prunedAccess ∧
      (∀ c cascade, Op.addChild ch true fuel f i c cascade = (f, some VErr.prunedAccess)) ∧
      (∀ c cascade, Op.removeChild ch true fuel f i c cascade
        = (f, some VErr.prunedAccess)) ∧
      Op.getCost true f i = Except.error VErr.prunedAccess ∧
      Op.getEdgeInCost true f i = Except.error VErr.prunedAccess ∧
      Op.isNew true f i = Except.error VErr.prunedAccess ∧
      Op.markNew true f i = (f, some VErr.prunedAccess) ∧
      Op.markOld true f i = (f, some VErr.prunedAccess) ∧
      Op.hasBeenExpandedToSamples true f i = Except.error VErr.prunedAccess ∧
      Op.markExpandedToSamples true f i = (f, some VErr.prunedAccess) ∧
      Op.markUnexpandedToSamples true f i = (f, some VErr.prunedAccess) ∧
      Op.hasBeenExpandedToVertices true f i = Except.error VErr.prunedAccess ∧
      Op.markExpandedToVertices true f i = (f, some VErr.prunedAccess) ∧
      Op.markUnexpandedToVertices true f i = (f, some VErr.prunedAccess) ∧
      Op.markPruned true f i = (f, some VErr.prunedAccess) ∧
      Op.isPruned f i = Except.ok true ∧
      Op.markUnpruned f i = (setV f i { v with isPruned := false }, none) := by
  intro f i v hfi hp
  have ha : Op.assertNotPruned true v = some VErr.prunedAccess := by
    simp [Op.assertNotPruned, hp]
  refine ⟨?_, ?_, ?_, ?_, ?_, ?_, ?_, ?_, ?_, ?_, ?_, ?_, ?_, ?_, ?_, ?_, ?_, ?_, ?_,
    ?_, ?_, ?_, ?_, ?_, ?_, ?_⟩ <;>
    intros <;>
    simp [Op.getId, Op.isRoot, Op.hasParent, Op.isInTree, Op.getDepth, Op.getParent,
      Op.addParent, Op.removeParent, Op.hasChildren, Op.getChildren, Op.addChild,
      Op.removeChild, Op.getCost, Op.getEdgeInCost, Op.isNew, Op.markNew, Op.markOld,
      Op.hasBeenExpandedToSamples, Op.markExpandedToSamples, Op.markUnexpandedToSamples,
      Op.hasBeenExpandedToVertices, Op.markExpandedToVertices, Op.markUnexpandedToVertices,
      Op.markPruned, Op.isPruned, Op.markUnpruned, Op.markOp, Op.query, hfi, ha, hp]

/-- C7.  In a debug build, `addParent` on a vertex that already has a
parent raises the has-parent programming error, and on the root (with no
parent) the root programming error; in both cases the forest is returned
unchanged — a parent is never silently replaced nor attached to a root. -/
theorem addParent_precondition_errors {C : Type} (ch : CostHelper C) (fuel : Nat) :
    (∀ (f : Forest C) (i p : Nat) (e : C) (cascade : Bool) (v : Vertex C),
      findV f i = some v → v.isPruned = false → v.parent.isSome = true →
      Op.addParent ch true fuel f i p e cascade = (f, some VErr.addParentHasParent)) ∧
    (∀ (f : Forest C) (i p : Nat) (e : C) (cascade : Bool) (v : Vertex C),
      findV f i = some v → v.isPruned = false → v.parent = none → v.isRoot = true →
      Op.addParent ch true fuel f i p e cascade = (f, some VErr.addParentRoot)) := by
  constructor
  · intro f i p e cascade v hfi hup hpar
    simp [Op.addParent, Op.assertNotPruned, hfi, hup, hpar]
  · intro f i p e cascade v hfi hup hpar hroot
    simp [Op.addParent, Op.assertNotPruned, hfi, hup, hpar, hroot]

/-- C9.  `markPruned` runs under the same `ASSERT_NOT_PRUNED` guard as
the other operations: in a debug build, calling it on an already-pruned
vertex raises the pruned-vertex programming error (it is not
idempotent), whereas `markUnpruned` carries no assertion at all and
succeeds on every vertex, pruned or not, clearing the flag. -/
theorem markPruned_guarded_markUnpruned_unguarded {C : Type} :
    (∀ (f : Forest C) (i : Nat) (v : Vertex C),
      findV f i = some v → v.isPruned = true →
      Op.markPruned true f i = (f, some VErr.prunedAccess)) ∧
    (∀ (f : Forest C) (i : Nat) (v : Vertex C),
      findV f i = some v →
      Op.markUnpruned f i = (setV f i { v with isPruned := false }, none)) := by
  constructor
  · intro f i v hfi hp
    simp [Op.markPruned, Op.markOp, Op.assertNotPruned, hfi, hp]
  · intro f i v hfi
    simp [Op.markUnpruned, hfi]

/-- C4.  With a non-empty dynamic-obstacle map and a passing static
check, `isValid(s, t)` consults exactly the key
`round(t * scalingFactor)` and returns false iff `areStatesValid` fails
for some obstacle entry stored under that key (for example key 4 for
t = 0.37 and scalingFactor = 10). -/
theorem isValidT_dynamic {State Obs : Type} (c : DynChecker State Obs) (s : State) (t : ℚ) :
    c.dynObstacles.isEmpty = false →
    c.isValidStatic s = true →
    (isValidT c s t).2 = [cppRound (t * c.scalingFactor)] ∧
      ((isValidT c s t).1 = false ↔
        ∃ o ∈ obsAt c (cppRound (t * c.scalingFactor)), c.areStatesValid s o = false) := by
  intro hne hst
  cases hl : lookupObs c.dynObstacles (cppRound (t * c.scalingFactor)) with
  | none =>
    simp [isValidT, hne, hst, hl, obsAt]
  | some obs =>
    simp only [isValidT, hne, hst, Bool.false_eq_true, if_false, if_true, hl]
    refine ⟨trivial, ?_⟩
    rw [show obsAt c (cppRound (t * c.scalingFactor)) = obs from by simp [obsAt, hl]]
    constructor
    · intro hall
      rcases List.all_eq_false.mp hall with ⟨o, ho, hno⟩
      exact ⟨o, ho, by simpa using hno⟩
    · rintro ⟨o, ho, hno⟩
      exact List.all_eq_false.mpr ⟨o, ho, by simp [hno]⟩

/-- C10.  With an empty dynamic-obstacle map, `isValid(s, t)` is exactly
the static `isValid(s)` and performs no time-key lookup at all; with a
non-empty map but no entry under the rounded key, the result is likewise
exactly the static check. -/
theorem isValidT_static_fallback {State Obs : Type} (c : DynChecker State Obs)
    (s : State) (t : ℚ) :
    (c.dynObstacles.isEmpty = true → isValidT c s t = (c.isValidStatic s, [])) ∧
    (c.dynObstacles.isEmpty = false →
      lookupObs c.dynObstacles (cppRound (t * c.scalingFactor)) = none →
      (isValidT c s t).1 = c.isValidStatic s) := by
  constructor
  · intro he
    simp [isValidT, he]
  · intro hne hl
    cases hst : c.isValidStatic s with
    | false => simp [isValidT, hne, hst]
    | true => simp [isValidT, hne, hst, hl]

/-- C5 (spec-modelled).  For an on-manifold state `x`, traversing from
`x` to itself with `interpolate = true` stops with reason "reached" and
produces a trace of exactly one state (the copy of `x`), for any
positive fuel, as soon as the self-distance is within the step size (a
metric gives `dist x x = 0 ≤ δ`). -/
theorem followManifold_self_reached {X : Type} (ops : TraversalOps X) (delta lam : ℚ)
    (fuel : Nat) (x : X) :
    ops.dist x x ≤ delta →
    followManifold ops delta lam (fuel + 1) x x true = (StopReason.reached, [x]) := by
  intro h
  simp [followManifold, followAux, h]

theorem costCascade_invariant_preserved_witness :
    cascadeInvB natCost (Op.addParent natCost true 8 wForest 3 1 (some 5) true).1 = true :=
  ((costCascade_invariant_preserved natCost true 8).1 wForest
    (Op.addParent natCost true 8 wForest 3 1 (some 5) true).1 3 1 (some 5)
    (mkV false none [] none none 0 false) [3]
    (by decide) (by decide) (by decide) ⟨by decide, by decide, by decide⟩).1

theorem pruned_vertex_is_inert_witness :
    Op.getCost (C := Option Nat) true wPruned 0 = Except.error VErr.prunedAccess ∧
      Op.isPruned (C := Option Nat) wPruned 0 = Except.ok true := by
  have h := pruned_vertex_is_inert natCost 4 wPruned 0 (mkV false none [] none none 0 true)
    (by decide) (by decide)
  exact ⟨h.2.2.2.2.2.2.2.2.2.2.2.2.1, h.2.2.2.2.2.2.2.2.2.2.2.2.2.2.2.2.2.2.2.2.2.2.2.2.1⟩

theorem removeParent_infinite_cascade_witness :
    findV (Op.removeParent natCost false 8 wForest 1 true).1 1
      = some (mkV false none [2] (some 3) none 0 false) :=
  ((removeParent_infinite_cascade natCost false 8
      (fun x => by cases x <;> rfl)).2 wForest
    (Op.removeParent natCost false 8 wForest 1 true).1 1
    (mkV false (some 0) [2] (some 3) (some 3) 1 false) [1, 2]
    (by decide) (by decide) (by decide) (by decide) (by decide) (by decide)).1

theorem isValidT_dynamic_witness :
    cppRound ((37 / 100 : ℚ) * 10) = 4 ∧
      ((isValidT wChecker 0 (37 / 100)).2 = [cppRound ((37 / 100) * wChecker.scalingFactor)] ∧
        ((isValidT wChecker 0 (37 / 100)).1 = false ↔
          ∃ o ∈ obsAt wChecker (cppRound ((37 / 100) * wChecker.scalingFactor)),
            wChecker.areStatesValid 0 o = false)) :=
  ⟨by norm_num [cppRound], isValidT_dynamic wChecker 0 (37 / 100) (by decide) (by decide)⟩

theorem followManifold_self_reached_witness :
    followManifold wOps 1 2 5 7 7 true = (StopReason.reached, [7]) :=
  followManifold_self_reached wOps 1 2 4 7 (by decide)

theorem addChild_removeChild_restores_witness :
    ∃ v', findV (Op.removeChild natCost true 4
        (Op.addChild natCost true 4 wForest 0 3 true).1 0 3 true).1 0 = some v' ∧
      v'.children = [1] ∧ v'.children.length = ([1] : List Nat).length ∧
      Multiset.ofList v'.children = Multiset.ofList [1] :=
  addChild_removeChild_restores natCost true 4 4 wForest
    (Op.addChild natCost true 4 wForest 0 3 true).1
    (Op.removeChild natCost true 4 (Op.addChild natCost true 4 wForest 0 3 true).1 0 3 true).1
    0 3 (mkV true none [1] none (some 0) 0 false) (mkV false none [] none none 0 false)
    (by decide) (by decide) (by decide)
    (by
      intro x hx
      simp only [mkV, List.mem_singleton] at hx
      subst hx
      exact ⟨mkV false (some 0) [2] (some 3) (some 3) 1 false, by decide, fun _ => by decide⟩)
    (by decide) (by decide)

theorem addParent_precondition_errors_witness :
    Op.addParent natCost true 4 wForest 1 0 (some 9) true
        = (wForest, some VErr.addParentHasParent) ∧
      Op.addParent natCost true 4 wForest 0 2 (some 9) true
        = (wForest, some VErr.addParentRoot) :=
  ⟨(addParent_precondition_errors natCost 4).1 wForest 1 0 (some 9) true
      (mkV false (some 0) [2] (some 3) (some 3) 1 false) (by decide) (by decide) (by decide),
    (addParent_precondition_errors natCost 4).2 wForest 0 2 (some 9) true
      (mkV true none [1] none (some 0) 0 false) (by decide) (by decide) (by decide) (by decide)⟩

theorem removeChild_notFound_not_atomic_witness :
    Op.removeChild natCost true 3 wForest 0 3 true
      = ((updateCostAndDepth natCost true 3
            (setV wForest 0 (mkV true none [1] none (some 0) 0 false)) 3 true).1,
         some VErr.childNotFound) :=
  (removeChild_notFound_not_atomic natCost 3 wForest
    (updateCostAndDepth natCost true 3
      (setV wForest 0 (mkV true none [1] none (some 0) 0 false)) 3 true).1
    0 3 (mkV true none [1] none (some 0) 0 false) (mkV false none [] none none 0 false)
    (by decide) (by decide) (by decide) (by decide)
    (by
      intro x hx
      simp only [mkV, List.mem_singleton] at hx
      subst hx
      exact ⟨mkV false (some 0) [2] (some 3) (some 3) 1 false, by decide, by decide⟩)
    (by decide) (by decide)).1

theorem markPruned_guarded_markUnpruned_unguarded_witness :
    Op.markPruned (C := Option Nat) true wPruned 0 = (wPruned, some VErr.prunedAccess) ∧
      Op.markUnpruned (C := Option Nat) wPruned 0
        = (setV wPruned 0 (mkV false none [] none none 0 false), none) :=
  ⟨markPruned_guarded_markUnpruned_unguarded.1 wPruned 0
      (mkV false none [] none none 0 true) (by decide) (by decide),
    markPruned_guarded_markUnpruned_unguarded.2 wPruned 0
      (mkV false none [] none none 0 true) (by decide)⟩

theorem isValidT_static_fallback_witness :
    isValidT wCheckerEmpty 0 (37 / 100) = (wCheckerEmpty.isValidStatic 0, []) :=
  (isValidT_static_fallback wCheckerEmpty 0 (37 / 100)).1 (by decide)

end MROR
